import Mathlib

/-!
Verification of the `urlsigner` package of CodeLieutenant/utils (HMAC-signed,
time-limited URLs) against its natural-language specification.

Strings are modelled as byte lists (`Str := List Nat`), matching Go strings,
which are byte slices.  The external collaborators the spec names (hash
function family, HMAC construction, clock) are parameters of the model; the
URL/query machinery of Go's `net/url` that `Sign`/`Verify` rely on
(`url.Values`, `Query`, `Encode`, `QueryEscape`/`QueryUnescape`) and the
RFC3339-nanosecond time formatting/parsing of Go's `time` package are
embedded concretely below.
-/

/-- Go strings are byte slices; we model them as lists of byte values. -/
abbrev Str := List Nat

/-- ASCII string literal helper (all source literals are ASCII). -/
def str (s : String) : Str := s.data.map Char.toNat

/-- All byte values of a modelled string are genuine bytes. -/
def allBytes (s : Str) : Bool := s.all (fun b => b < 256)

/-! ## Percent escaping: Go net/url QueryEscape / QueryUnescape (query mode) -/

/-- Bytes Go's query escaping leaves untouched: alphanumerics and `-_.~`. -/
def isUnreservedByte (c : Nat) : Bool :=
  (65 ≤ c && c ≤ 90) || (97 ≤ c && c ≤ 122) || (48 ≤ c && c ≤ 57) ||
  c == 45 || c == 95 || c == 46 || c == 126

/-- Upper-case hex digit byte for a nibble, as Go's escaping emits. -/
def hexDigitUpper (n : Nat) : Nat := if n < 10 then 48 + n else 55 + n

/-- Escaping of a single byte in query position: keep unreserved bytes, map
space to `+`, percent-encode the rest (Go `shouldEscape`/`escape`). -/
def escByte (c : Nat) : Str :=
  if isUnreservedByte c then [c]
  else if c == 32 then [43]
  else [37, hexDigitUpper (c / 16), hexDigitUpper (c % 16)]

/-- Go `url.QueryEscape`. -/
def queryEscape (s : Str) : Str := (s.map escByte).flatten

/-- Value of a hex digit byte, accepting both cases (Go `unhex`). -/
def hexVal (c : Nat) : Option Nat :=
  if 48 ≤ c && c ≤ 57 then some (c - 48)
  else if 65 ≤ c && c ≤ 70 then some (c - 55)
  else if 97 ≤ c && c ≤ 102 then some (c - 87)
  else none

/-- Go `url.QueryUnescape`: `+` becomes space, `%XX` decodes, a `%` not
followed by two hex digits is an error. -/
def queryUnescape : Str → Option Str
  | [] => some []
  | c :: rest =>
    if c = 43 then (queryUnescape rest).map (fun t => 32 :: t)
    else if c = 37 then
      match rest with
      | h :: l :: rest2 =>
        match hexVal h, hexVal l, queryUnescape rest2 with
        | some hv, some lv, some t => some ((16 * hv + lv) :: t)
        | _, _, _ => none
      | _ => none
    else (queryUnescape rest).map (fun t => c :: t)

/-! ## Byte-list splitting, as Go strings.Cut / strings.Split do on query strings -/

/-- Cut at the first occurrence of a separator byte; when the separator is
absent the second component is empty (like Go `strings.Cut`). -/
def cutByte (sep : Nat) : Str → Str × Str
  | [] => ([], [])
  | c :: rest =>
    if c = sep then ([], rest)
    else
      let p := cutByte sep rest
      (c :: p.1, p.2)

/-- Split on every occurrence of a separator byte (Go `strings.Split` on a
one-byte separator, equivalently iterated `strings.Cut`). -/
def splitOnByte (sep : Nat) : Str → List Str
  | [] => [[]]
  | c :: rest =>
    match splitOnByte sep rest with
    | [] => [[]]
    | p :: ps => if c = sep then [] :: p :: ps else (c :: p) :: ps

/-- Join pieces with `&` between them. -/
def joinAmp : List Str → Str
  | [] => []
  | [p] => p
  | p :: ps => p ++ 38 :: joinAmp ps

/-! ## url.Values

Go's `url.Values` is an unordered `map[string][]string`; its `Encode`
serialises it with keys sorted byte-lexicographically.  We model a `Values`
as an association list kept strictly sorted by key (the canonical form the
map is always observed through), each key holding its values in order. -/

abbrev Values := List (Str × List Str)

/-- Byte-lexicographic strict order on byte strings (the order of Go
`sort.Strings` on keys). -/
def strLt : Str → Str → Bool
  | [], [] => false
  | [], _ :: _ => true
  | _ :: _, [] => false
  | a :: as, b :: bs => a < b || (a == b && strLt as bs)

/-- Append one value for a key (what query parsing does pair by pair,
`v[key] = append(v[key], value)`), keeping keys sorted. -/
def valuesAdd : Values → Str → Str → Values
  | [], k, v => [(k, [v])]
  | (k1, vs) :: rest, k, v =>
    if k = k1 then (k1, vs ++ [v]) :: rest
    else if strLt k k1 then (k, [v]) :: (k1, vs) :: rest
    else (k1, vs) :: valuesAdd rest k v

/-- Go `Values.Get`: first value for the key, or the empty string. -/
def valuesGet : Values → Str → Str
  | [], _ => []
  | (k1, vs) :: rest, k => if k = k1 then vs.headD [] else valuesGet rest k

/-- Whether the key is present at all. -/
def valuesHas : Values → Str → Bool
  | [], _ => false
  | (k1, _) :: rest, k => k = k1 || valuesHas rest k

/-- Go `Values.Set`: replace all values of the key by the one given. -/
def valuesSet : Values → Str → Str → Values
  | [], k, v => [(k, [v])]
  | (k1, vs) :: rest, k, v =>
    if k = k1 then (k1, [v]) :: rest
    else if strLt k k1 then (k, [v]) :: (k1, vs) :: rest
    else (k1, vs) :: valuesSet rest k v

/-- Go `Values.Del`: drop the key. -/
def valuesDel : Values → Str → Values
  | [], _ => []
  | (k1, vs) :: rest, k => if k = k1 then rest else (k1, vs) :: valuesDel rest k

/-- One escaped `key=value` pair of `Values.Encode`. -/
def encPair (k v : Str) : Str := queryEscape k ++ 61 :: queryEscape v

/-- Go `Values.Encode`: keys in sorted order (which is how the list is kept),
each value escaped as `k=v`, pairs joined with `&`. -/
def valuesEncode (vs : Values) : Str :=
  joinAmp (vs.flatMap (fun kv => kv.2.map (encPair kv.1)))

/-- Processing of one `&`-separated pair by Go's query parser: skip an empty
pair or one containing `;` (Go records an error and drops it), cut at the
first `=`, unescape both sides (dropping the pair if either fails), append. -/
def queryStep (m : Values) (piece : Str) : Values :=
  if piece = [] then m
  else if piece.contains 59 then m
  else
    let kv := cutByte 61 piece
    match queryUnescape kv.1, queryUnescape kv.2 with
    | some k, some v => valuesAdd m k v
    | _, _ => m

/-- Go `url.ParseQuery` as used by `URL.Query()`: split the raw query on `&`
and process the pairs in order.  Errors are discarded by `Query()`. -/
def parseQuery (s : Str) : Values :=
  if s = [] then [] else (splitOnByte 38 s).foldl queryStep []

/-- The values of a key as a list (the underlying `v[key]` of the Go map):
the full list for the first matching key, `[]` when absent. -/
def valuesList : Values → Str → List Str
  | [], _ => []
  | (k1, vs) :: rest, k => if k = k1 then vs else valuesList rest k

/-- Well-formed `Values`: strictly sorted keys (the canonical representation
of the unordered Go map), no key with an empty value list (parsing and the
operations never create one), and everything made of bytes. -/
def ValuesWF (vs : Values) : Prop :=
  List.Chain' (fun a b => strLt a.1 b.1 = true) vs ∧
  ∀ kv ∈ vs, kv.2 ≠ [] ∧ allBytes kv.1 = true ∧ ∀ v ∈ kv.2, allBytes v = true

/-! ## Base64, Go encoding/base64 RawURLEncoding (URL-safe alphabet, no padding) -/

/-- Byte of the URL-safe base64 alphabet for a six-bit value. -/
def b64char (n : Nat) : Nat :=
  if n < 26 then 65 + n
  else if n < 52 then 97 + (n - 26)
  else if n < 62 then 48 + (n - 52)
  else if n = 62 then 45 else 95

/-- Six-bit value of an alphabet byte, `none` outside the alphabet. -/
def b64val (c : Nat) : Option Nat :=
  if 65 ≤ c && c ≤ 90 then some (c - 65)
  else if 97 ≤ c && c ≤ 122 then some (c - 97 + 26)
  else if 48 ≤ c && c ≤ 57 then some (c - 48 + 52)
  else if c == 45 then some 62
  else if c == 95 then some 63
  else none

/-- `base64.RawURLEncoding.EncodeToString`. -/
def b64encode : Str → Str
  | [] => []
  | [b1] => [b64char (b1 / 4), b64char (b1 % 4 * 16)]
  | [b1, b2] => [b64char (b1 / 4), b64char (b1 % 4 * 16 + b2 / 16), b64char (b2 % 16 * 4)]
  | b1 :: b2 :: b3 :: rest =>
    b64char (b1 / 4) :: b64char (b1 % 4 * 16 + b2 / 16) ::
      b64char (b2 % 16 * 4 + b3 / 64) :: b64char (b3 % 64) :: b64encode rest

/-- `base64.RawURLEncoding.DecodeString`: groups of four alphabet bytes give
three bytes, a final group of three gives two, of two gives one, of one (or
any byte outside the alphabet) is an error.  Like Go's non-strict decoder,
unused trailing bits are ignored. -/
def b64decodeRun : Str → Option Str
  | [] => some []
  | [_] => none
  | [c1, c2] =>
    match b64val c1, b64val c2 with
    | some v1, some v2 => some [v1 * 4 + v2 / 16]
    | _, _ => none
  | [c1, c2, c3] =>
    match b64val c1, b64val c2, b64val c3 with
    | some v1, some v2, some v3 => some [v1 * 4 + v2 / 16, v2 % 16 * 16 + v3 / 4]
    | _, _, _ => none
  | c1 :: c2 :: c3 :: c4 :: rest =>
    match b64val c1, b64val c2, b64val c3, b64val c4, b64decodeRun rest with
    | some v1, some v2, some v3, some v4, some t =>
      some ((v1 * 4 + v2 / 16) :: (v2 % 16 * 16 + v3 / 4) :: (v3 % 4 * 64 + v4) :: t)
    | _, _, _, _, _ => none

/-- Go `base64.RawURLEncoding.DecodeString`: the decoder ignores carriage
returns and newlines wherever they occur, then decodes the 6-bit quanta. -/
def b64decode (s : Str) : Option Str :=
  b64decodeRun (s.filter (fun c => !(c == 13 || c == 10)))

/-! ## Time: UTC instants with nanosecond precision

Go's `time.Time` compares (`Before`) and adds durations on an absolute
timeline; only formatting and parsing look at the calendar.  We model an
instant as the number of nanoseconds since 0001-01-01T00:00:00Z (proleptic
Gregorian, UTC), so `Add` is addition and `Before` is `<`.  The calendar
conversion follows Go's `absDate`: peel off 400/100/4/1-year cycles. -/

/-- Days in the years `1 .. y` of the proleptic Gregorian calendar. -/
def daysInYears (y : Nat) : Nat := 365 * y + y / 4 - y / 100 + y / 400

/-- Gregorian leap-year rule (Go `isLeap`). -/
def isLeap (y : Nat) : Bool := (y % 4 == 0 && y % 100 != 0) || y % 400 == 0

/-- Go-style year extraction (`time.absDate`): from a day count since
0001-01-01, peel 400-year, 100-year, 4-year and 1-year cycles, clamping the
last division of each irregular step exactly as Go does with `n -= n >> 2`.
Returns the (1-based) year and the 0-based day within it. -/
def yearYday (days0 : Nat) : Nat × Nat :=
  let n400 := days0 / 146097
  let r := days0 % 146097
  let n100 := r / 36524
  let n100c := n100 - n100 / 4
  let r1 := r - 36524 * n100c
  let n4 := r1 / 1461
  let r2 := r1 - 1461 * n4
  let n1 := r2 / 365
  let n1c := n1 - n1 / 4
  let yday := r2 - 365 * n1c
  (400 * n400 + 100 * n100c + 4 * n4 + n1c + 1, yday)

/-- Cumulative days before month `m` (1-based) in a non-leap year
(Go `daysBefore`). -/
def daysBefore (m : Nat) : Nat :=
  match m with
  | 0 => 0
  | 1 => 0
  | 2 => 31
  | 3 => 59
  | 4 => 90
  | 5 => 120
  | 6 => 151
  | 7 => 181
  | 8 => 212
  | 9 => 243
  | 10 => 273
  | 11 => 304
  | 12 => 334
  | _ => 365

/-- Length of a month (Go `daysIn`). -/
def daysInMonth (year m : Nat) : Nat :=
  if m = 2 then (if isLeap year then 29 else 28) else daysBefore (m + 1) - daysBefore m

/-- Month and day of month from a 0-based day of a non-leap year
(the estimate-by-31 step of Go `absDate`). -/
def monthDayNonLeap (day : Nat) : Nat × Nat :=
  let m := day / 31 + 1
  if daysBefore (m + 1) ≤ day then (m + 1, day - daysBefore (m + 1) + 1)
  else (m, day - daysBefore m + 1)

/-- Month and day of month from a 0-based day of year (Go `absDate`): in a
leap year days after February 29 shift down by one, and day 59 is
February 29 itself. -/
def monthDay (year yday : Nat) : Nat × Nat :=
  if isLeap year then
    if yday > 59 then monthDayNonLeap (yday - 1)
    else if yday = 59 then (2, 29)
    else monthDayNonLeap yday
  else monthDayNonLeap yday

/-- Zero-padded fixed-width decimal digits of `n`, big-endian (the widths
used by RFC3339 formatting; all formatted fields fit their width, years are
kept below 10000). -/
def pad : Nat → Nat → Str
  | 0, _ => []
  | w + 1, n => pad w (n / 10) ++ [48 + n % 10]

/-- Decimal digits with trailing zeros removed, as `time.RFC3339Nano`
formats fractional seconds. -/
def dropTrailingZeros (s : Str) : Str := (s.reverse.dropWhile (fun c => c == 48)).reverse

/-- Fractional-second part of RFC3339Nano: empty when the nanoseconds are
zero, otherwise a dot and the nanosecond digits with trailing zeros
stripped. -/
def fracPart (nanos : Nat) : Str :=
  if nanos = 0 then [] else 46 :: dropTrailingZeros (pad 9 nanos)

/-- Go `t.Format(time.RFC3339Nano)` for a UTC instant `t` given in
nanoseconds since 0001-01-01T00:00:00Z: `YYYY-MM-DDTHH:MM:SS(.frac)?Z`. -/
def formatRFC3339Nano (t : Nat) : Str :=
  let sec := t / 1000000000
  let nanos := t % 1000000000
  let days0 := sec / 86400
  let tod := sec % 86400
  let ymd := yearYday days0
  let md := monthDay ymd.1 ymd.2
  pad 4 ymd.1 ++ 45 :: pad 2 md.1 ++ 45 :: pad 2 md.2 ++
    84 :: pad 2 (tod / 3600) ++ 58 :: pad 2 (tod % 3600 / 60) ++ 58 :: pad 2 (tod % 60) ++
    fracPart nanos ++ [90]

/-- Is the byte an ASCII digit. -/
def isDigitByte (c : Nat) : Bool := 48 ≤ c && c ≤ 57

/-- Read exactly `k` digit bytes into an accumulator, returning the value
and the rest of the input. -/
def readDigitsAcc : Nat → Nat → Str → Option (Nat × Str)
  | acc, 0, s => some (acc, s)
  | acc, k + 1, c :: s =>
    if isDigitByte c then readDigitsAcc (acc * 10 + (c - 48)) k s else none
  | _, _ + 1, [] => none

/-- Maximal prefix of digit bytes and the remaining input. -/
def digitRun : Str → Str × Str
  | [] => ([], [])
  | c :: s =>
    if isDigitByte c then
      let p := digitRun s
      (c :: p.1, p.2)
    else ([], c :: s)

/-- Value of a big-endian digit-byte string. -/
def digitsVal (ds : Str) : Nat := ds.foldl (fun acc c => acc * 10 + (c - 48)) 0

/-- The zone designator of `time.Parse(time.RFC3339Nano, _)`: `Z`, or a
`±hh:mm` numeric offset in seconds.  Go's layout-driven parser reads the two
offset fields as plain two-digit numbers without range checks (its optimized
RFC3339 path checks ranges but on failure Parse falls back to the layout
parser, so the lenient behaviour is the observable one). -/
def parseZoneOffset (s : Str) : Option Int :=
  if s = [90] then some 0
  else
    match s with
    | c :: s1 =>
      if c = 43 ∨ c = 45 then
        match readDigitsAcc 0 2 s1 with
        | none => none
        | some (zh, s2) =>
          match s2 with
          | 58 :: s3 =>
            match readDigitsAcc 0 2 s3 with
            | none => none
            | some (zm, s4) =>
              if s4 = [] then
                some (if c = 45 then -(((zh * 3600 + zm * 60 : Nat) : Int))
                  else ((zh * 3600 + zm * 60 : Nat) : Int))
              else none
          | _ => none
      else none
    | [] => none

/-- Go `time.Parse(time.RFC3339Nano, s)`: fixed-width numeric fields with
range validation (month-aware day-of-month bounds), an optional fraction of
one or more digits introduced by `.` or `,` (truncated to nanosecond
precision), and a `Z` or `±hh:mm` zone.  Returns the instant in (signed)
nanoseconds since 0001-01-01T00:00:00Z; four digits bound the year to
0000-9999, and year 0 (a leap year, 366 days before year 1) is accepted as
Go accepts it. -/
def parseRFC3339Nano (s : Str) : Option Int :=
  match readDigitsAcc 0 4 s with
  | none => none
  | some (year, s1) =>
    match s1 with
    | 45 :: s2 =>
      match readDigitsAcc 0 2 s2 with
      | none => none
      | some (month, s3) =>
        match s3 with
        | 45 :: s4 =>
          match readDigitsAcc 0 2 s4 with
          | none => none
          | some (day, s5) =>
            match s5 with
            | 84 :: s6 =>
              match readDigitsAcc 0 2 s6 with
              | none => none
              | some (hh, s7) =>
                match s7 with
                | 58 :: s8 =>
                  match readDigitsAcc 0 2 s8 with
                  | none => none
                  | some (mm, s9) =>
                    match s9 with
                    | 58 :: s10 =>
                      match readDigitsAcc 0 2 s10 with
                      | none => none
                      | some (ss, s11) =>
                        let fr :=
                          match s11 with
                          | 46 :: s12 =>
                            let p := digitRun s12
                            if p.1.length = 0 then none
                            else some (digitsVal (p.1.take 9) *
                              10 ^ (9 - min p.1.length 9), p.2)
                          | 44 :: s12 =>
                            let p := digitRun s12
                            if p.1.length = 0 then none
                            else some (digitsVal (p.1.take 9) *
                              10 ^ (9 - min p.1.length 9), p.2)
                          | _ => some (0, s11)
                        match fr with
                        | none => none
                        | some (nanos, s13) =>
                          match parseZoneOffset s13 with
                          | none => none
                          | some zoff =>
                            if 1 ≤ month && month ≤ 12 &&
                                1 ≤ day && day ≤ daysInMonth year month &&
                                hh < 24 && mm < 60 && ss < 60 then
                              some ((((daysInYears (year - 1) : Int) +
                                  (daysBefore month : Int) +
                                  (if 2 < month && isLeap year then (1 : Int) else 0) +
                                  ((day - 1 : Nat) : Int) -
                                  (if year = 0 then (366 : Int) else 0)) * 86400 +
                                  ((hh * 3600 + mm * 60 + ss : Nat) : Int) - zoff) *
                                  1000000000 + ((nanos : Nat) : Int))
                            else none
                    | _ => none
                | _ => none
            | _ => none
        | _ => none
    | _ => none

/-- First instant the four-digit-year model does not cover: the nanosecond
count of 10000-01-01T00:00:00Z. -/
def maxTime : Nat := daysInYears 9999 * 86400 * 1000000000

/-! ## The urlsigner package -/

/-- A URL as the signer observes it: everything before the query (scheme,
host, path — opaque to signing and verification, which only rewrite the
query) plus the raw query string.  `urlString`/`parseURL` below play the
role of `URL.String()` and `url.Parse` for fragment-free URLs. -/
structure URL where
  base : Str
  rawQuery : Str
  forceQuery : Bool
  fragment : Str
deriving DecidableEq

/-- Go `URL.String()`: the `?` appears when the raw query is non-empty or
`ForceQuery` is set (the URL was parsed from a string ending in a lone `?`),
and a non-empty fragment is appended after `#`. -/
def urlString (u : URL) : Str :=
  u.base ++ (if u.forceQuery || !u.rawQuery.isEmpty then 63 :: u.rawQuery else []) ++
    (if u.fragment = [] then [] else 35 :: u.fragment)

/-- Go `url.Parse` restricted to what the signer needs: cut the fragment at
the first `#`; then, as Go does, a remainder ending in `?` with no other `?`
sets `ForceQuery` with an empty query, and otherwise the remainder splits at
the first `?` into base and raw query (claims about parse failures of
malformed URLs are out of scope of this model). -/
def parseURL (s : Str) : URL :=
  let pf := cutByte 35 s
  if pf.1.getLast? = some 63 ∧ (63 : Nat) ∉ pf.1.dropLast then
    ⟨pf.1.dropLast, [], true, pf.2⟩
  else
    let q := cutByte 63 pf.1
    ⟨q.1, q.2, false, pf.2⟩

/-- The `signature` query parameter name (source constant `Signature`). -/
def Signature : Str := str "signature"

/-- The `expires` query parameter name (source constant `Expiration`). -/
def Expiration : Str := str "expires"

/-- The `HMACSigner` struct: the injected clock (a pure instant here — the
spec fixes the clock per call) and the hash factory.  In the source the
factory is `func() hash.Hash` whose body calls `utils.ParseHasher(algo)`,
which panics on an unknown algorithm name at the first invocation; we model
the factory as `some mac` for a working keyed hash and `none` for a factory
whose invocation panics. -/
structure HMACSigner where
  now : Nat
  hasher : Option (Str → Str)

/-- The outcomes of `Verify` (and the signing panic): the three error values
of the source, success, and the two panics (`ParseHasher`'s unknown-name
panic, and `verifyExpiration`'s invalid-format panic). -/
inductive VerifyResult where
  | ok
  | errMissingSignature
  | errInvalidSignature
  | errExpired
  | panicUnknownHasher
  | panicInvalidExpiration
deriving DecidableEq

/-- Result of `Sign`: the signed URL string, or the deferred unknown-hasher
panic (signing an unparsable URL is modelled out by taking a parsed `URL`). -/
inductive SignResult where
  | ok (signed : Str)
  | panicUnknownHasher
deriving DecidableEq

/-- Model of `utils.ParseHasher` (the switch in utils): the five supported
names select the corresponding member of an abstract family of hash
functions (the crypto library is an external collaborator); any other name
panics — deferred here to the use site, so `none`. -/
structure HashFamily where
  sha256 : Str → Str
  sha512x256 : Str → Str
  sha3x256 : Str → Str
  sha3x512 : Str → Str
  blake2b : Str → Str

def ParseHasher (F : HashFamily) (algo : Str) : Option (Str → Str) :=
  if algo = str "sha256" then some F.sha256
  else if algo = str "sha512/256" then some F.sha512x256
  else if algo = str "sha3-256" then some F.sha3x256
  else if algo = str "sha3-512" then some F.sha3x512
  else if algo = str "blake2b" then some F.blake2b
  else none

/-- `urlsigner.New`: panics (returns `none`) unless `32 ≤ len(key) ≤ 64`;
otherwise builds the signer, wiring `hmac.New(utils.ParseHasher(algo),
keyBytes)` as the hash factory.  `hmacNew` abstracts `crypto/hmac`'s
construction of a keyed hash from a raw hash and a key; the default clock of
the source (`time.Now().UTC()`) is the injected `now`. -/
def New (F : HashFamily) (hmacNew : (Str → Str) → Str → Str → Str)
    (algo : Str) (keyBytes : Str) (now : Nat) : Option HMACSigner :=
  if keyBytes.length > 64 || keyBytes.length < 32 then none
  else some { now := now, hasher := (ParseHasher F algo).map (fun h => hmacNew h keyBytes) }

/-- `HMACSigner.Sign`: parse the query, set `expires = now + duration`
(RFC3339Nano) unless the duration is zero, canonically re-encode the query,
MAC the resulting URL string, and append `&signature=<base64>` textually. -/
def Sign (S : HMACSigner) (u : URL) (duration : Nat) : SignResult :=
  let query := parseQuery u.rawQuery
  let query :=
    if duration ≠ 0 then valuesSet query Expiration (formatRFC3339Nano (S.now + duration))
    else query
  let raw := valuesEncode query
  match S.hasher with
  | none => .panicUnknownHasher
  | some mac =>
    let signature := b64encode (mac (urlString ⟨u.base, raw, u.forceQuery, u.fragment⟩))
    let raw2 :=
      if raw.length > 0 then raw ++ 38 :: (Signature ++ 61 :: signature)
      else Signature ++ 61 :: signature
    .ok (urlString ⟨u.base, raw2, u.forceQuery, u.fragment⟩)

/-- `HMACSigner.extractAndDecodeSignature`: the extracted decoded signature
and the query with the `signature` key deleted, or the caller-facing error. -/
inductive ExtractResult where
  | ok (sigBytes : Str) (query : Values)
  | err (e : VerifyResult)

def extractAndDecodeSignature (query : Values) : ExtractResult :=
  let signature := valuesGet query Signature
  if signature = [] then .err .errMissingSignature
  else
    match b64decode signature with
    | none => .err .errInvalidSignature
    | some sigBytes => .ok sigBytes (valuesDel query Signature)

/-- `HMACSigner.verifyMAC`: `hmac.Equal` is (constant-time) byte equality. -/
def verifyMAC (mac : Str → Str) (original : Str) (sigBytes : Str) : Bool :=
  sigBytes == mac original

/-- `HMACSigner.verifyExpiration`: an absent or empty `expires` never
expires; a present one must parse as RFC3339Nano (panic otherwise — the
signature already validated) and is expired only when strictly before the
clock. -/
def verifyExpiration (S : HMACSigner) (query : Values) : VerifyResult :=
  if (valuesGet query Expiration).length = 0 then .ok
  else
    match parseRFC3339Nano (valuesGet query Expiration) with
    | none => .panicInvalidExpiration
    | some expires => if expires < (S.now : Int) then .errExpired else .ok

/-- `HMACSigner.Verify`.  The source mutates its `*url.URL` argument
(rewriting `u.RawQuery` to the canonical signature-free encoding once the
signature has been extracted and decoded); the model returns the updated
URL alongside the result. -/
def Verify (S : HMACSigner) (u : URL) : VerifyResult × URL :=
  let query := parseQuery u.rawQuery
  match extractAndDecodeSignature query with
  | .err e => (e, u)
  | .ok sigBytes query2 =>
    let u2 : URL := ⟨u.base, valuesEncode query2, u.forceQuery, u.fragment⟩
    match S.hasher with
    | none => (.panicUnknownHasher, u2)
    | some mac =>
      if verifyMAC mac (urlString u2) sigBytes then (verifyExpiration S query2, u2)
      else (.errInvalidSignature, u2)

/-- Safety of a single escaped byte: an escaped byte never produces a query
metacharacter and stays a byte. -/
def escSafeByte (c : Nat) : Bool :=
  (escByte c).all (fun x =>
    x ≠ 38 && x ≠ 61 && x ≠ 59 && x ≠ 63 && x ≠ 35 && x < 256)

/-- Correctness checker for the month/day extraction on a non-leap day of
year, used to settle the bounded fact by evaluation. -/
def mdNonLeapOK (day : Nat) : Bool :=
  let md := monthDayNonLeap day
  1 ≤ md.1 && md.1 ≤ 12 && 1 ≤ md.2 &&
    md.2 ≤ (if md.1 = 2 then 28 else daysBefore (md.1 + 1) - daysBefore md.1) &&
    daysBefore md.1 + (md.2 - 1) = day

/-- The canonical query `Sign` authenticates: the parsed query of the input
URL, with `expires = now + duration` set when the duration is non-zero. -/
def signQuery (S : HMACSigner) (u : URL) (duration : Nat) : Values :=
  if duration ≠ 0 then
    valuesSet (parseQuery u.rawQuery) Expiration (formatRFC3339Nano (S.now + duration))
  else parseQuery u.rawQuery

/-- A deterministic toy keyed hash for concrete runs of the model: a
byte-valued polynomial accumulator (not collision-free, but it separates the
concrete messages the counterexamples use). -/
def macHash : Str → Str := fun s => [s.foldl (fun a c => (a * 31 + c) % 251) 7]

/-- The constant hash, for concrete runs where collisions are irrelevant. -/
def macConstA : Str → Str := fun _ => [65]

/-- An injective byte-valued encoding (unary digits with separators): an
ideal collision-free MAC for concrete runs of the tamper-detection claim. -/
def encL : Str → Str
  | [] => [50]
  | n :: t => 49 :: (List.replicate n 48 ++ encL t)

/-- The signed URL string of a successful `Sign`. -/
def signedStrOf : SignResult → Str
  | .ok s => s
  | .panicUnknownHasher => []

/-- A hash family whose members are all trivial; only the name dispatch of
`ParseHasher` matters to the claims that use it. -/
def dummyHashFamily : HashFamily :=
  ⟨fun _ => [], fun _ => [], fun _ => [], fun _ => [], fun _ => []⟩

/-! ## Theorems.  First the library-level lemmas, then the claims. -/

theorem strLt_irrefl (s : Str) : strLt s s = false := by
  induction s with
  | nil => rfl
  | cons a as ih => simp [strLt, ih]

theorem strLt_asymm (a b : Str) (h : strLt a b = true) : strLt b a = false := by
  induction a generalizing b with
  | nil => cases b with
    | nil => simpa [strLt] using h
    | cons x xs => simp [strLt]
  | cons x xs ih =>
    cases b with
    | nil => simp [strLt] at h
    | cons y ys =>
      simp only [strLt, Bool.or_eq_true, Bool.and_eq_true, beq_iff_eq, decide_eq_true_eq] at h
      simp only [strLt, Bool.or_eq_false_iff, Bool.and_eq_false_iff, decide_eq_false_iff_not,
        beq_eq_false_iff_ne, ne_eq]
      rcases h with h | ⟨rfl, h⟩
      · exact ⟨by omega, Or.inl (by omega)⟩
      · exact ⟨by omega, Or.inr (ih ys h)⟩

theorem strLt_total (a b : Str) : a = b ∨ strLt a b = true ∨ strLt b a = true := by
  induction a generalizing b with
  | nil => cases b with
    | nil => left; rfl
    | cons y ys => right; left; rfl
  | cons x xs ih =>
    cases b with
    | nil => right; right; rfl
    | cons y ys =>
      rcases Nat.lt_trichotomy x y with h | rfl | h
      · right; left; simp [strLt, h]
      · rcases ih ys with rfl | h | h
        · left; rfl
        · right; left; simp [strLt, h]
        · right; right; simp [strLt, h]
      · right; right; simp [strLt, h]

set_option maxRecDepth 4000 in
theorem escSafeByte_all : ∀ c, c < 256 → escSafeByte c = true := by decide

theorem isUnreservedByte_ne (c : Nat) (h : isUnreservedByte c = true) :
    c ≠ 43 ∧ c ≠ 37 ∧ c < 256 := by
  simp only [isUnreservedByte, Bool.or_eq_true, Bool.and_eq_true, decide_eq_true_eq,
    beq_iff_eq] at h
  omega

theorem hexVal_hexDigitUpper : ∀ n, n < 16 → hexVal (hexDigitUpper n) = some n := by decide

theorem queryUnescape_cons_plain (c : Nat) (rest : Str) (h43 : c ≠ 43) (h37 : c ≠ 37) :
    queryUnescape (c :: rest) = (queryUnescape rest).map (fun t => c :: t) := by
  rw [queryUnescape.eq_def]
  simp only [if_neg h43, if_neg h37]

theorem queryUnescape_queryEscape (s : Str) (h : allBytes s = true) :
    queryUnescape (queryEscape s) = some s := by
  induction s with
  | nil => rfl
  | cons c rest ih =>
    simp only [allBytes, List.all_cons, Bool.and_eq_true, decide_eq_true_eq] at h
    have ih2 := ih (by simp [allBytes, h.2])
    have step : queryEscape (c :: rest) = escByte c ++ queryEscape rest := by
      simp [queryEscape]
    rw [step, escByte]
    by_cases hu : isUnreservedByte c = true
    · obtain ⟨h43, h37, _⟩ := isUnreservedByte_ne c hu
      simp only [hu, if_true, List.cons_append, List.nil_append]
      rw [queryUnescape_cons_plain c _ h43 h37, ih2]
      rfl
    · by_cases hsp : c = 32
      · have hc : (c == 32) = true := by simp [hsp]
        simp only [hu, Bool.false_eq_true, if_false, hc, if_true, List.cons_append,
          List.nil_append]
        rw [queryUnescape.eq_def]
        simp only [reduceIte, ih2]
        subst hsp
        rfl
      · have hc : (c == 32) = false := by simp [hsp]
        simp only [hu, Bool.false_eq_true, if_false, hc, List.cons_append, List.nil_append]
        rw [queryUnescape.eq_def]
        have h16 : c / 16 < 16 := by omega
        have h16b : c % 16 < 16 := by omega
        simp only [reduceIte, hexVal_hexDigitUpper _ h16, hexVal_hexDigitUpper _ h16b, ih2]
        rw [if_neg (show ¬ (37 : Nat) = 43 by decide)]
        simp only [Option.some.injEq, List.cons.injEq, and_true]
        omega

theorem queryUnescape_plain (s : Str) (h : ∀ c ∈ s, c ≠ 43 ∧ c ≠ 37) :
    queryUnescape s = some s := by
  induction s with
  | nil => rfl
  | cons c rest ih =>
    have hc := h c (List.mem_cons_self _ _)
    rw [queryUnescape_cons_plain c _ hc.1 hc.2,
      ih (fun x hx => h x (List.mem_cons_of_mem _ hx))]
    rfl

theorem queryEscape_mem (s : Str) (hs : allBytes s = true) (x : Nat)
    (hx : x ∈ queryEscape s) :
    x ≠ 38 ∧ x ≠ 61 ∧ x ≠ 59 ∧ x ≠ 63 ∧ x ≠ 35 ∧ x < 256 := by
  simp only [queryEscape, List.mem_flatten, List.mem_map] at hx
  obtain ⟨l, ⟨c, hc, rfl⟩, hxl⟩ := hx
  have hcb : c < 256 := by
    simp only [allBytes, List.all_eq_true, decide_eq_true_eq] at hs
    exact hs c hc
  have := escSafeByte_all c hcb
  simp only [escSafeByte, List.all_eq_true, Bool.and_eq_true, decide_eq_true_eq,
    bne_iff_ne, ne_eq] at this
  have h2 := this x hxl
  tauto

theorem b64val_b64char : ∀ n, n < 64 → b64val (b64char n) = some n := by decide

/-- Alphabet bytes are plain unescaped query text: never metacharacters,
never `+` or `%`. -/
theorem b64char_safe : ∀ n, n < 64 →
    b64char n ≠ 38 ∧ b64char n ≠ 61 ∧ b64char n ≠ 59 ∧ b64char n ≠ 63 ∧
    b64char n ≠ 35 ∧ b64char n ≠ 43 ∧ b64char n ≠ 37 ∧ b64char n < 256 := by decide

theorem b64decodeRun_b64encode (s : Str) (h : allBytes s = true) :
    b64decodeRun (b64encode s) = some s := by
  induction s using b64encode.induct with
  | case1 => rfl
  | case2 b1 =>
    simp only [allBytes, List.all_eq_true, decide_eq_true_eq] at h
    have h1 := h b1 (by simp)
    rw [b64encode, b64decodeRun]
    rw [b64val_b64char _ (by omega), b64val_b64char _ (by omega)]
    simp only [Option.some.injEq, List.cons.injEq, and_true]
    omega
  | case3 b1 b2 =>
    simp only [allBytes, List.all_eq_true, decide_eq_true_eq] at h
    have h1 := h b1 (by simp)
    have h2 := h b2 (by simp)
    rw [b64encode, b64decodeRun]
    rw [b64val_b64char _ (by omega), b64val_b64char _ (by omega), b64val_b64char _ (by omega)]
    simp only [Option.some.injEq, List.cons.injEq, and_true]
    exact ⟨by omega, by omega⟩
  | case4 b1 b2 b3 rest ih =>
    simp only [allBytes, List.all_cons, Bool.and_eq_true, decide_eq_true_eq] at h
    obtain ⟨h1, h2, h3, hrest⟩ := h
    have ih2 := ih (by simpa [allBytes] using hrest)
    rw [b64encode, b64decodeRun]
    rw [b64val_b64char _ (by omega), b64val_b64char _ (by omega),
      b64val_b64char _ (by omega), b64val_b64char _ (by omega), ih2]
    simp only [Option.some.injEq, List.cons.injEq]
    exact ⟨by omega, by omega, by omega, trivial⟩

/-! ### Decimal digits -/

theorem pad_length (w n : Nat) : (pad w n).length = w := by
  induction w generalizing n with
  | zero => rfl
  | succ w ih => simp [pad, ih]

theorem pad_digits (w n : Nat) : ∀ c ∈ pad w n, isDigitByte c = true := by
  induction w generalizing n with
  | zero => simp [pad]
  | succ w ih =>
    intro c hc
    rw [pad] at hc
    rcases List.mem_append.mp hc with h | h
    · exact ih _ c h
    · simp only [List.mem_singleton] at h
      subst h
      simp only [isDigitByte, Bool.and_eq_true, decide_eq_true_eq]
      omega

theorem digitsVal_append_single (xs : Str) (x : Nat) :
    digitsVal (xs ++ [x]) = digitsVal xs * 10 + (x - 48) := by
  simp [digitsVal, List.foldl_append]

theorem digitsVal_pad (w n : Nat) (h : n < 10 ^ w) : digitsVal (pad w n) = n := by
  induction w generalizing n with
  | zero =>
    simp only [pow_zero, Nat.lt_one_iff] at h
    simp [h, pad, digitsVal]
  | succ w ih =>
    rw [pad, digitsVal_append_single, ih (n / 10) (by
      have : (10 : Nat) ^ (w + 1) = 10 ^ w * 10 := by ring
      omega)]
    omega

theorem foldl_digits_acc (ds : Str) (acc : Nat) :
    List.foldl (fun a c => a * 10 + (c - 48)) acc ds = acc * 10 ^ ds.length + digitsVal ds := by
  induction ds generalizing acc with
  | nil => simp [digitsVal]
  | cons c cs ih =>
    simp only [List.foldl_cons, List.length_cons, digitsVal]
    rw [ih (acc * 10 + (c - 48)), ih (0 * 10 + (c - 48))]
    rw [pow_succ]
    ring

theorem readDigitsAcc_append (ds rest : Str) (acc : Nat)
    (hd : ∀ c ∈ ds, isDigitByte c = true) :
    readDigitsAcc acc ds.length (ds ++ rest) =
      some (List.foldl (fun a c => a * 10 + (c - 48)) acc ds, rest) := by
  induction ds generalizing acc with
  | nil => simp [readDigitsAcc]
  | cons c cs ih =>
    have hc := hd c (by simp)
    simp only [List.length_cons, List.cons_append, readDigitsAcc, hc, if_true, List.foldl_cons]
    exact ih _ (fun x hx => hd x (by simp [hx]))

theorem readDigits_pad (w n : Nat) (rest : Str) (h : n < 10 ^ w) :
    readDigitsAcc 0 w (pad w n ++ rest) = some (n, rest) := by
  have h2 := readDigitsAcc_append (pad w n) rest 0 (pad_digits w n)
  rw [pad_length] at h2
  rw [h2, foldl_digits_acc, digitsVal_pad w n h]
  simp

theorem digitsVal_replicate_zero (k : Nat) : digitsVal (List.replicate k 48) = 0 := by
  induction k with
  | zero => rfl
  | succ k ih =>
    simp only [List.replicate_succ, digitsVal, List.foldl_cons] at ih ⊢
    simpa using ih

theorem dropTrailingZeros_decomp (s : Str) :
    s = dropTrailingZeros s ++ List.replicate (s.reverse.takeWhile (fun c => c == 48)).length 48 := by
  have h1 : ∀ c ∈ s.reverse.takeWhile (fun c => c == 48), c = 48 := by
    intro c hc
    have := List.mem_takeWhile_imp hc
    simpa using this
  have h2 : (s.reverse.takeWhile (fun c => c == 48)).reverse =
      List.replicate (s.reverse.takeWhile (fun c => c == 48)).length 48 := by
    rw [List.eq_replicate_of_mem h1]
    simp
  unfold dropTrailingZeros
  conv_lhs => rw [← s.reverse_reverse]
  conv_lhs => rw [← List.takeWhile_append_dropWhile (p := fun c => c == 48) (l := s.reverse)]
  rw [List.reverse_append, h2]

theorem dropTrailingZeros_mem (s : Str) (c : Nat) (hc : c ∈ dropTrailingZeros s) : c ∈ s := by
  unfold dropTrailingZeros at hc
  rw [List.mem_reverse] at hc
  have := (List.dropWhile_sublist (l := s.reverse) (p := fun c => c == 48)).subset hc
  simpa using this

theorem digitRun_append (ds rest : Str) (hd : ∀ c ∈ ds, isDigitByte c = true)
    (hr : ∀ c ∈ rest.take 1, isDigitByte c = false) :
    digitRun (ds ++ rest) = (ds, rest) := by
  induction ds with
  | nil =>
    cases rest with
    | nil => rfl
    | cons r t =>
      have := hr r (by simp)
      simp [digitRun, this]
  | cons c cs ih =>
    have hc := hd c (by simp)
    simp [digitRun, hc, ih (fun x hx => hd x (by simp [hx]))]

/-- The fractional part of RFC3339Nano parses back to the nanosecond count:
the stripped digits are non-empty, at most nine, all digits, and their value
scaled by the dropped zeros recovers the nanoseconds. -/
theorem fracDigits_spec (nanos : Nat) (h9 : nanos < 1000000000) (h0 : nanos ≠ 0) :
    dropTrailingZeros (pad 9 nanos) ≠ [] ∧
    (dropTrailingZeros (pad 9 nanos)).length ≤ 9 ∧
    (∀ c ∈ dropTrailingZeros (pad 9 nanos), isDigitByte c = true) ∧
    digitsVal (dropTrailingZeros (pad 9 nanos)) *
      10 ^ (9 - (dropTrailingZeros (pad 9 nanos)).length) = nanos := by
  have hdec := dropTrailingZeros_decomp (pad 9 nanos)
  set ds := dropTrailingZeros (pad 9 nanos) with hds
  set k := ((pad 9 nanos).reverse.takeWhile (fun c => c == 48)).length with hk
  have hlen : ds.length + k = 9 := by
    have := congrArg List.length hdec
    simpa [pad_length] using this.symm
  have hval : digitsVal ds * 10 ^ k = nanos := by
    have hcast := congrArg digitsVal hdec
    rw [digitsVal_pad 9 nanos (by omega)] at hcast
    rw [hcast]
    unfold digitsVal
    rw [List.foldl_append]
    have happ := foldl_digits_acc (List.replicate k 48)
      (List.foldl (fun a c => a * 10 + (c - 48)) 0 ds)
    rw [happ]
    simp [digitsVal_replicate_zero]
  refine ⟨?_, by omega, ?_, ?_⟩
  · intro hnil
    rw [hnil] at hval
    simp [digitsVal] at hval
    omega
  · intro c hc
    exact pad_digits 9 nanos c (dropTrailingZeros_mem _ c hc)
  · have : 9 - ds.length = k := by omega
    rw [this, hval]

/-! ### Calendar -/

set_option maxHeartbeats 1000000 in
theorem eraDecomp (r : Nat) (hr : r ≤ 146096) :
    let n100 := r / 36524
    let b := n100 - n100 / 4
    let r1 := r - 36524 * b
    let c := r1 / 1461
    let r2 := r1 - 1461 * c
    let n1 := r2 / 365
    let e := n1 - n1 / 4
    let yday := r2 - 365 * e
    36524 * b + 1461 * c + 365 * e + yday = r ∧ b ≤ 3 ∧ c ≤ 24 ∧ e ≤ 3 ∧ yday ≤ 365 ∧
      (yday = 365 → e = 3 ∧ (c = 24 → b = 3)) := by
  intro n100 b r1 c r2 n1 e yday
  omega

set_option maxHeartbeats 1000000 in
theorem yearRecomp (a b c e : Nat) (hb : b ≤ 3) (hc : c ≤ 24) (he : e ≤ 3) :
    let y := 400 * a + 100 * b + 4 * c + e
    365 * y + y / 4 - y / 100 + y / 400 = 146097 * a + 36524 * b + 1461 * c + 365 * e ∧
    (((y + 1) % 4 = 0 ∧ ((y + 1) % 100 ≠ 0 ∨ (y + 1) % 400 = 0)) ↔
      (e = 3 ∧ (c = 24 → b = 3))) := by
  intro y
  omega

theorem isLeap_iff (y : Nat) :
    isLeap y = true ↔ (y % 4 = 0 ∧ y % 100 ≠ 0) ∨ y % 400 = 0 := by
  simp [isLeap, Bool.or_eq_true, Bool.and_eq_true]

set_option maxHeartbeats 1000000 in
theorem yearYday_spec (days0 : Nat) :
    1 ≤ (yearYday days0).1 ∧
    daysInYears ((yearYday days0).1 - 1) + (yearYday days0).2 = days0 ∧
    (yearYday days0).2 ≤ 364 + (if isLeap (yearYday days0).1 then 1 else 0) := by
  have hr : days0 % 146097 ≤ 146096 := by omega
  have hera := eraDecomp (days0 % 146097) hr
  simp only [] at hera
  obtain ⟨hsum, hb, hc, he, hyd, hleapday⟩ := hera
  have hrec := yearRecomp (days0 / 146097)
    (days0 % 146097 / 36524 - days0 % 146097 / 36524 / 4)
    ((days0 % 146097 - 36524 * (days0 % 146097 / 36524 - days0 % 146097 / 36524 / 4)) / 1461)
    ((days0 % 146097 - 36524 * (days0 % 146097 / 36524 - days0 % 146097 / 36524 / 4) -
        1461 * ((days0 % 146097 -
          36524 * (days0 % 146097 / 36524 - days0 % 146097 / 36524 / 4)) / 1461)) / 365 -
      (days0 % 146097 - 36524 * (days0 % 146097 / 36524 - days0 % 146097 / 36524 / 4) -
        1461 * ((days0 % 146097 -
          36524 * (days0 % 146097 / 36524 - days0 % 146097 / 36524 / 4)) / 1461)) / 365 / 4)
    hb hc he
  simp only [] at hrec
  obtain ⟨hdy, hlp⟩ := hrec
  simp only [yearYday, daysInYears]
  constructor
  · omega
  constructor
  · simp only [Nat.add_sub_cancel]
    omega
  · split
    · rename_i hL
      rw [isLeap_iff] at hL
      omega
    · rename_i hL
      have hL2 := (Iff.not (isLeap_iff _)).mp hL
      omega

set_option maxRecDepth 4000 in
set_option maxHeartbeats 4000000 in
theorem mdNonLeapOK_all : ∀ d, d < 365 → mdNonLeapOK d = true := by decide

theorem daysBefore_ge_3 : ∀ m, 3 ≤ m → m ≤ 12 → 59 ≤ daysBefore m := by decide

theorem monthDay_spec (year yday : Nat)
    (h : yday ≤ 364 + (if isLeap year then 1 else 0)) :
    1 ≤ (monthDay year yday).1 ∧ (monthDay year yday).1 ≤ 12 ∧
    1 ≤ (monthDay year yday).2 ∧
    (monthDay year yday).2 ≤ daysInMonth year (monthDay year yday).1 ∧
    daysBefore (monthDay year yday).1 +
      (if 2 < (monthDay year yday).1 ∧ isLeap year then 1 else 0) +
      ((monthDay year yday).2 - 1) = yday := by
  have core : ∀ d, d < 365 →
      1 ≤ (monthDayNonLeap d).1 ∧ (monthDayNonLeap d).1 ≤ 12 ∧ 1 ≤ (monthDayNonLeap d).2 ∧
      (monthDayNonLeap d).2 ≤ (if (monthDayNonLeap d).1 = 2 then 28
        else daysBefore ((monthDayNonLeap d).1 + 1) - daysBefore (monthDayNonLeap d).1) ∧
      daysBefore (monthDayNonLeap d).1 + ((monthDayNonLeap d).2 - 1) = d := by
    intro d hd
    have := mdNonLeapOK_all d hd
    simp only [mdNonLeapOK, Bool.and_eq_true, decide_eq_true_eq] at this
    tauto
  by_cases hl : isLeap year = true
  · rw [monthDay, if_pos hl]
    simp only [hl, if_true] at h
    by_cases h59 : yday > 59
    · rw [if_pos h59]
      obtain ⟨c1, c2, c3, c4, c5⟩ := core (yday - 1) (by omega)
      have hm3 : 3 ≤ (monthDayNonLeap (yday - 1)).1 := by
        by_contra hcon
        push_neg at hcon
        interval_cases hmv : (monthDayNonLeap (yday - 1)).1 <;>
          simp_all [daysBefore] <;> omega
      refine ⟨c1, c2, c3, ?_, ?_⟩
      · rw [daysInMonth, if_neg (by omega)]
        rw [if_neg (by omega)] at c4
        exact c4
      · rw [if_pos ⟨by omega, hl⟩]
        omega
    · rw [if_neg h59]
      by_cases heq : yday = 59
      · rw [if_pos heq]
        refine ⟨by norm_num, by norm_num, by norm_num, ?_, ?_⟩
        · simp [daysInMonth, hl]
        · simp only [show ¬ (2 < 2 ∧ isLeap year = true) by omega, if_neg, if_false]
          simp [daysBefore]
          omega
      · rw [if_neg heq]
        obtain ⟨c1, c2, c3, c4, c5⟩ := core yday (by omega)
        have hm2 : (monthDayNonLeap yday).1 ≤ 2 := by
          by_contra hcon
          push_neg at hcon
          have := daysBefore_ge_3 (monthDayNonLeap yday).1 (by omega) c2
          omega
        refine ⟨c1, c2, c3, ?_, ?_⟩
        · rw [daysInMonth]
          by_cases hm : (monthDayNonLeap yday).1 = 2
          · rw [if_pos hm] at c4 ⊢
            rw [if_pos hl]
            omega
          · rw [if_neg hm] at c4 ⊢
            exact c4
        · rw [if_neg (by omega)]
          omega
  · rw [monthDay, if_neg hl]
    simp only [hl, if_false] at h
    obtain ⟨c1, c2, c3, c4, c5⟩ := core yday (by
      rcases Nat.lt_or_ge yday 365 with h1 | h1
      · exact h1
      · simp at h; omega)
    refine ⟨c1, c2, c3, ?_, ?_⟩
    · rw [daysInMonth]
      by_cases hm : (monthDayNonLeap yday).1 = 2
      · rw [if_pos hm] at c4 ⊢
        rw [if_neg hl]
        exact c4
      · rw [if_neg hm] at c4 ⊢
        exact c4
    · rw [if_neg (by simp [hl])]
      omega

theorem daysInYears_mono (a b : Nat) (h : a ≤ b) : daysInYears a ≤ daysInYears b := by
  have step : ∀ n, daysInYears n ≤ daysInYears (n + 1) := by
    intro n
    simp only [daysInYears]
    omega
  exact monotone_nat_of_le_succ step h

theorem daysInMonth_le (year m : Nat) (h1 : 1 ≤ m) (h2 : m ≤ 12) :
    daysInMonth year m ≤ 31 := by
  rw [daysInMonth]
  split
  · split <;> omega
  · interval_cases m <;> simp [daysBefore]

set_option maxHeartbeats 2000000 in
/-- Formatting a UTC instant below year 10000 with RFC3339Nano and parsing
it back is the identity (the stdlib round trip the signer's expiry handling
relies on). -/
theorem parseRFC3339Nano_format (t : Nat) (ht : t < maxTime) :
    parseRFC3339Nano (formatRFC3339Nano t) = some (t : Int) := by
  have hys := yearYday_spec (t / 1000000000 / 86400)
  obtain ⟨hY1, hdays, hydle⟩ := hys
  have hms := monthDay_spec (yearYday (t / 1000000000 / 86400)).1
    (yearYday (t / 1000000000 / 86400)).2 hydle
  obtain ⟨hM1, hM12, hD1, hDle, hrel⟩ := hms
  have hdays0 : t / 1000000000 / 86400 < daysInYears 9999 := by
    have h1 : maxTime = daysInYears 9999 * 86400 * 1000000000 := rfl
    omega
  have hY9999 : (yearYday (t / 1000000000 / 86400)).1 ≤ 9999 := by
    by_contra hcon
    push_neg at hcon
    have := daysInYears_mono 9999 ((yearYday (t / 1000000000 / 86400)).1 - 1) (by omega)
    omega
  have hD31 : (monthDay (yearYday (t / 1000000000 / 86400)).1
      (yearYday (t / 1000000000 / 86400)).2).2 ≤ 31 := by
    have := daysInMonth_le (yearYday (t / 1000000000 / 86400)).1
      (monthDay (yearYday (t / 1000000000 / 86400)).1
        (yearYday (t / 1000000000 / 86400)).2).1 hM1 hM12
    omega
  simp only [formatRFC3339Nano]
  simp only [List.append_assoc, List.cons_append]
  rw [parseRFC3339Nano]
  rw [readDigits_pad 4 _ _ (by norm_num; omega)]
  simp only []
  rw [readDigits_pad 2 _ _ (by norm_num; omega)]
  simp only []
  rw [readDigits_pad 2 _ _ (by norm_num; omega)]
  simp only []
  rw [readDigits_pad 2 _ _ (by norm_num; omega)]
  simp only []
  rw [readDigits_pad 2 _ _ (by norm_num; omega)]
  simp only []
  rw [readDigits_pad 2 _ _ (by norm_num; omega)]
  simp only []
  by_cases hn0 : t % 1000000000 = 0
  · rw [fracPart, if_pos hn0]
    simp only [List.nil_append]
    have hcond : (1 ≤ (monthDay (yearYday (t / 1000000000 / 86400)).1
          (yearYday (t / 1000000000 / 86400)).2).1 &&
        (monthDay (yearYday (t / 1000000000 / 86400)).1
          (yearYday (t / 1000000000 / 86400)).2).1 ≤ 12 &&
        1 ≤ (monthDay (yearYday (t / 1000000000 / 86400)).1
          (yearYday (t / 1000000000 / 86400)).2).2 &&
        (monthDay (yearYday (t / 1000000000 / 86400)).1
          (yearYday (t / 1000000000 / 86400)).2).2 ≤
          daysInMonth (yearYday (t / 1000000000 / 86400)).1
            (monthDay (yearYday (t / 1000000000 / 86400)).1
              (yearYday (t / 1000000000 / 86400)).2).1 &&
        t / 1000000000 % 86400 / 3600 < 24 &&
        t / 1000000000 % 86400 % 3600 / 60 < 60 &&
        t / 1000000000 % 86400 % 60 < 60) = true := by
      simp only [Bool.and_eq_true, decide_eq_true_eq]
      refine ⟨⟨⟨⟨⟨⟨hM1, hM12⟩, hD1⟩, hDle⟩, by omega⟩, by omega⟩, by omega⟩
    rw [show parseZoneOffset [90] = some 0 from rfl]
    simp only []
    rw [if_pos hcond]
    congr 1
    rw [if_neg (show ¬(yearYday (t / 1000000000 / 86400)).1 = 0 by omega)]
    by_cases hadj : 2 < (monthDay (yearYday (t / 1000000000 / 86400)).1
        (yearYday (t / 1000000000 / 86400)).2).1 ∧
        isLeap (yearYday (t / 1000000000 / 86400)).1 = true
    · rw [if_pos hadj] at hrel
      rw [if_pos (by simp only [Bool.and_eq_true, decide_eq_true_eq]; exact hadj)]
      omega
    · rw [if_neg hadj] at hrel
      rw [if_neg (by simp only [Bool.and_eq_true, decide_eq_true_eq]; exact hadj)]
      omega
  · rw [fracPart, if_neg hn0]
    have hfr := fracDigits_spec (t % 1000000000) (by omega) hn0
    obtain ⟨hne, hlen, hdig, hval⟩ := hfr
    simp only [List.cons_append]
    rw [digitRun_append _ _ hdig (by intro c hc; simp at hc; subst hc; rfl)]
    simp only []
    rw [if_neg (fun hc => hne (List.length_eq_zero.mp hc))]
    have hcond : (1 ≤ (monthDay (yearYday (t / 1000000000 / 86400)).1
          (yearYday (t / 1000000000 / 86400)).2).1 &&
        (monthDay (yearYday (t / 1000000000 / 86400)).1
          (yearYday (t / 1000000000 / 86400)).2).1 ≤ 12 &&
        1 ≤ (monthDay (yearYday (t / 1000000000 / 86400)).1
          (yearYday (t / 1000000000 / 86400)).2).2 &&
        (monthDay (yearYday (t / 1000000000 / 86400)).1
          (yearYday (t / 1000000000 / 86400)).2).2 ≤
          daysInMonth (yearYday (t / 1000000000 / 86400)).1
            (monthDay (yearYday (t / 1000000000 / 86400)).1
              (yearYday (t / 1000000000 / 86400)).2).1 &&
        t / 1000000000 % 86400 / 3600 < 24 &&
        t / 1000000000 % 86400 % 3600 / 60 < 60 &&
        t / 1000000000 % 86400 % 60 < 60) = true := by
      simp only [Bool.and_eq_true, decide_eq_true_eq]
      refine ⟨⟨⟨⟨⟨⟨hM1, hM12⟩, hD1⟩, hDle⟩, by omega⟩, by omega⟩, by omega⟩
    split
    · rename_i hbad
      simp at hbad
    · rename_i nanos s13 heq
      rw [Option.some.injEq, Prod.mk.injEq] at heq
      obtain ⟨hv, hs13⟩ := heq
      rw [← hs13]
      rw [show parseZoneOffset [90] = some 0 from rfl]
      simp only []
      rw [if_pos hcond]
      congr 1
      rw [List.take_of_length_le hlen, Nat.min_eq_left hlen] at hv
      rw [if_neg (show ¬(yearYday (t / 1000000000 / 86400)).1 = 0 by omega)]
      by_cases hadj : 2 < (monthDay (yearYday (t / 1000000000 / 86400)).1
          (yearYday (t / 1000000000 / 86400)).2).1 ∧
          isLeap (yearYday (t / 1000000000 / 86400)).1 = true
      · rw [if_pos hadj] at hrel
        rw [if_pos (by simp only [Bool.and_eq_true, decide_eq_true_eq]; exact hadj)]
        omega
      · rw [if_neg hadj] at hrel
        rw [if_neg (by simp only [Bool.and_eq_true, decide_eq_true_eq]; exact hadj)]
        omega

/-! ### Splitting and joining query strings -/

theorem strLt_trans (a b c : Str) (h1 : strLt a b = true) (h2 : strLt b c = true) :
    strLt a c = true := by
  induction a generalizing b c with
  | nil =>
    cases c with
    | nil => cases b <;> simp [strLt] at h2
    | cons z zs => rfl
  | cons x xs ih =>
    cases b with
    | nil => simp [strLt] at h1
    | cons y ys =>
      cases c with
      | nil => simp [strLt] at h2
      | cons z zs =>
        simp only [strLt, Bool.or_eq_true, Bool.and_eq_true, beq_iff_eq,
          decide_eq_true_eq] at h1 h2 ⊢
        rcases h1 with h1 | ⟨rfl, h1⟩ <;> rcases h2 with h2 | ⟨rfl, h2⟩
        · exact Or.inl (by omega)
        · exact Or.inl h1
        · exact Or.inl h2
        · exact Or.inr ⟨rfl, ih ys zs h1 h2⟩

theorem splitOnByte_no_sep (sep : Nat) (s : Str) (h : sep ∉ s) :
    splitOnByte sep s = [s] := by
  induction s with
  | nil => rfl
  | cons c rest ih =>
    rw [splitOnByte, ih (by simp at h; exact h.2)]
    simp only []
    rw [if_neg (by simp at h; exact fun hc => h.1 hc.symm)]

theorem splitOnByte_sep (sep : Nat) (p r : Str) (h : sep ∉ p) :
    splitOnByte sep (p ++ sep :: r) = p :: splitOnByte sep r := by
  induction p with
  | nil =>
    rw [List.nil_append, splitOnByte]
    cases hs : splitOnByte sep r with
    | nil =>
      exfalso
      cases r with
      | nil => simp [splitOnByte] at hs
      | cons a b =>
        rw [splitOnByte] at hs
        rcases h2 : splitOnByte sep b with _ | _ <;> rw [h2] at hs <;> simp at hs
        split at hs <;> simp at hs
    | cons q qs => simp
  | cons c cs ih =>
    rw [List.cons_append, splitOnByte, ih (by simp at h; exact h.2)]
    simp only []
    rw [if_neg (by simp at h; exact fun hc => h.1 hc.symm)]

theorem joinAmp_cons (p : Str) (ps : List Str) (h : ps ≠ []) :
    joinAmp (p :: ps) = p ++ 38 :: joinAmp ps := by
  cases ps with
  | nil => exact absurd rfl h
  | cons q qs => rfl

theorem splitOn_joinAmp (ps : List Str) (hne : ps ≠ [])
    (h : ∀ p ∈ ps, (38 : Nat) ∉ p) : splitOnByte 38 (joinAmp ps) = ps := by
  induction ps with
  | nil => exact absurd rfl hne
  | cons p qs ih =>
    cases qs with
    | nil => exact splitOnByte_no_sep 38 p (h p (by simp))
    | cons q qs2 =>
      rw [joinAmp_cons p _ (by simp), splitOnByte_sep 38 p _ (h p (by simp))]
      rw [ih (by simp) (fun x hx => h x (by simp [hx]))]

theorem cutByte_sep (sep : Nat) (p r : Str) (h : sep ∉ p) :
    cutByte sep (p ++ sep :: r) = (p, r) := by
  induction p with
  | nil => simp [cutByte]
  | cons c cs ih =>
    rw [List.cons_append, cutByte]
    rw [if_neg (by simp at h; exact fun hc => h.1 hc.symm)]
    simp [ih (by simp at h; exact h.2)]

theorem splitOnByte_mem (sep : Nat) (s p : Str) (hp : p ∈ splitOnByte sep s) :
    ∀ c ∈ p, c ∈ s := by
  induction s generalizing p with
  | nil =>
    simp only [splitOnByte, List.mem_singleton] at hp
    subst hp
    simp
  | cons a rest ih =>
    rw [splitOnByte] at hp
    rcases hs : splitOnByte sep rest with _ | ⟨q, qs⟩
    · rw [hs] at hp
      simp only [List.mem_singleton] at hp
      subst hp
      simp
    · rw [hs] at hp
      simp only [] at hp
      by_cases ha : a = sep
      · rw [if_pos ha] at hp
        rcases List.mem_cons.mp hp with hp2 | hp2
        · subst hp2; intro c hc; simp at hc
        · intro c hc
          have := ih p (by rw [hs]; exact hp2) c hc
          simp [this]
      · rw [if_neg ha] at hp
        rcases List.mem_cons.mp hp with hp2 | hp2
        · subst hp2
          intro c hc
          rcases List.mem_cons.mp hc with hc2 | hc2
          · simp [hc2]
          · have := ih q (by rw [hs]; simp) c hc2
            simp [this]
        · intro c hc
          have := ih p (by rw [hs]; simp [hp2]) c hc
          simp [this]

theorem cutByte_mem (sep : Nat) (s : Str) :
    (∀ c ∈ (cutByte sep s).1, c ∈ s) ∧ (∀ c ∈ (cutByte sep s).2, c ∈ s) := by
  induction s with
  | nil => simp [cutByte]
  | cons a rest ih =>
    rw [cutByte]
    by_cases ha : a = sep
    · rw [if_pos ha]
      exact ⟨by simp, fun c hc => by simp [hc]⟩
    · rw [if_neg ha]
      refine ⟨?_, fun c hc => by simp [ih.2 c hc]⟩
      intro c hc
      rcases List.mem_cons.mp hc with hc2 | hc2
      · simp [hc2]
      · simp [ih.1 c hc2]

/-! ### The encode/parse round trip on well-formed Values -/

theorem encPair_ne_nil (k v : Str) : encPair k v ≠ [] := by
  unfold encPair
  cases h : queryEscape k with
  | nil => simp [h]
  | cons a b => simp [h]

theorem encPair_mem (k v : Str) (hk : allBytes k = true) (hv : allBytes v = true)
    (x : Nat) (hx : x ∈ encPair k v) : x = 61 ∨ x ∈ queryEscape k ∨ x ∈ queryEscape v := by
  unfold encPair at hx
  rcases List.mem_append.mp hx with h | h
  · exact Or.inr (Or.inl h)
  · rcases List.mem_cons.mp h with h2 | h2
    · exact Or.inl h2
    · exact Or.inr (Or.inr h2)

theorem encPair_no_amp (k v : Str) (hk : allBytes k = true) (hv : allBytes v = true) :
    (38 : Nat) ∉ encPair k v := by
  intro hmem
  rcases encPair_mem k v hk hv 38 hmem with h | h | h
  · omega
  · exact (queryEscape_mem k hk 38 h).1 rfl
  · exact (queryEscape_mem v hv 38 h).1 rfl

theorem contains_59_eq_false (p : Str) (h : (59 : Nat) ∉ p) : p.contains 59 = false := by
  induction p with
  | nil => rfl
  | cons c rest ih =>
    simp only [List.contains_cons, Bool.or_eq_false_iff]
    constructor
    · simp only [beq_eq_false_iff_ne, ne_eq]
      intro hc
      exact h (by simp [hc])
    · exact ih (fun hm => h (by simp [hm]))

theorem queryStep_encPair (m : Values) (k v : Str)
    (hk : allBytes k = true) (hv : allBytes v = true) :
    queryStep m (encPair k v) = valuesAdd m k v := by
  rw [queryStep, if_neg (encPair_ne_nil k v)]
  have hsemi : (encPair k v).contains 59 = false := by
    apply contains_59_eq_false
    intro hmem
    rcases encPair_mem k v hk hv 59 hmem with h | h | h
    · omega
    · exact (queryEscape_mem k hk 59 h).2.2.1 rfl
    · exact (queryEscape_mem v hv 59 h).2.2.1 rfl
  rw [hsemi]
  simp only [Bool.false_eq_true, if_false]
  have hcut : cutByte 61 (encPair k v) = (queryEscape k, queryEscape v) := by
    unfold encPair
    exact cutByte_sep 61 _ _ (fun hmem => (queryEscape_mem k hk 61 hmem).2.1 rfl)
  rw [hcut]
  simp only []
  rw [queryUnescape_queryEscape k hk, queryUnescape_queryEscape v hv]

theorem foldl_queryStep_encPairs (ps : List (Str × Str)) (m : Values)
    (hb : ∀ kv ∈ ps, allBytes kv.1 = true ∧ allBytes kv.2 = true) :
    List.foldl queryStep m (ps.map (fun kv => encPair kv.1 kv.2)) =
      List.foldl (fun m2 kv => valuesAdd m2 kv.1 kv.2) m ps := by
  induction ps generalizing m with
  | nil => rfl
  | cons p rest ih =>
    have hp := hb p (by simp)
    simp only [List.map_cons, List.foldl_cons, queryStep_encPair m p.1 p.2 hp.1 hp.2]
    exact ih _ (fun kv hkv => hb kv (by simp [hkv]))

theorem valuesAdd_gt_head (k1 : Str) (l : List Str) (m : Values) (k v : Str)
    (h : strLt k1 k = true) :
    valuesAdd ((k1, l) :: m) k v = (k1, l) :: valuesAdd m k v := by
  rw [valuesAdd]
  rw [if_neg (by rintro rfl; simp [strLt_irrefl] at h)]
  rw [if_neg (by intro hc; have := strLt_asymm k1 k h; rw [hc] at this; simp at this)]

theorem foldl_add_gt (ps : List (Str × Str)) (m : Values) (k1 : Str) (l : List Str)
    (h : ∀ kv ∈ ps, strLt k1 kv.1 = true) :
    List.foldl (fun m2 kv => valuesAdd m2 kv.1 kv.2) ((k1, l) :: m) ps =
      (k1, l) :: List.foldl (fun m2 kv => valuesAdd m2 kv.1 kv.2) m ps := by
  induction ps generalizing m with
  | nil => rfl
  | cons p rest ih =>
    simp only [List.foldl_cons]
    rw [valuesAdd_gt_head k1 l m p.1 p.2 (h p (by simp))]
    exact ih _ (fun kv hkv => h kv (by simp [hkv]))

theorem foldl_add_same (k : Str) (l acc : List Str) :
    List.foldl (fun m2 kv => valuesAdd m2 kv.1 kv.2) [(k, acc)] (l.map (fun v => (k, v))) =
      [(k, acc ++ l)] := by
  induction l generalizing acc with
  | nil => simp
  | cons v rest ih =>
    simp only [List.map_cons, List.foldl_cons, valuesAdd, if_pos rfl, if_true]
    rw [ih (acc ++ [v])]
    simp

theorem wf_head_lt (k : Str) (l : List Str) (rest : Values)
    (hwf : List.Chain' (fun a b => strLt a.1 b.1 = true) ((k, l) :: rest)) :
    ∀ kv ∈ rest, strLt k kv.1 = true := by
  induction rest generalizing k l with
  | nil => simp
  | cons p rest2 ih =>
    intro kv hkv
    rcases List.chain'_cons.mp hwf with ⟨h1, h2⟩
    rcases List.mem_cons.mp hkv with rfl | hkv2
    · exact h1
    · exact strLt_trans _ _ _ h1 (ih p.1 p.2 h2 kv hkv2)

theorem foldl_add_allPairs (vs : Values) (hwf : ValuesWF vs) :
    List.foldl (fun m2 kv => valuesAdd m2 kv.1 kv.2) []
      (vs.flatMap (fun kv => kv.2.map (fun v => (kv.1, v)))) = vs := by
  induction vs with
  | nil => rfl
  | cons p rest ih =>
    obtain ⟨hchain, hmem⟩ := hwf
    obtain ⟨hne, hkb, hvb⟩ := hmem p (by simp)
    rcases p with ⟨k, l⟩
    cases l with
    | nil => exact absurd rfl hne
    | cons v0 ltail =>
      simp only [List.flatMap_cons, List.foldl_append, List.map_cons, List.foldl_cons]
      have h1 : valuesAdd [] k v0 = [(k, [v0])] := rfl
      rw [h1, foldl_add_same k ltail [v0]]
      have hgt : ∀ kv ∈ rest.flatMap (fun kv => kv.2.map (fun v => (kv.1, v))),
          strLt k kv.1 = true := by
        intro kv hkv
        rw [List.mem_flatMap] at hkv
        obtain ⟨entry, hentry, hkv2⟩ := hkv
        rw [List.mem_map] at hkv2
        obtain ⟨v, hvmem, rfl⟩ := hkv2
        exact wf_head_lt k (v0 :: ltail) rest hchain entry hentry
      rw [foldl_add_gt _ [] k _ hgt]
      rw [ih ⟨(List.chain'_cons'.mp hchain).2, fun kv hkv => hmem kv (by simp [hkv])⟩]
      simp

set_option maxHeartbeats 800000 in
/-- The canonical encoding parses back to exactly the Values it encodes: the
round trip that makes verification insensitive to how the query reached the
verifier. -/
theorem parseQuery_valuesEncode (vs : Values) (hwf : ValuesWF vs) :
    parseQuery (valuesEncode vs) = vs := by
  cases hvs : vs with
  | nil => rfl
  | cons p rest =>
    have hpairs : vs.flatMap (fun kv => kv.2.map (encPair kv.1)) =
        (vs.flatMap (fun kv => kv.2.map (fun v => (kv.1, v)))).map
          (fun kv => encPair kv.1 kv.2) := by
      rw [List.map_flatMap]
      congr 1
      funext kv
      rw [List.map_map]
      rfl
    have hpb : ∀ kv ∈ vs.flatMap (fun kv => kv.2.map (fun v => (kv.1, v))),
        allBytes kv.1 = true ∧ allBytes kv.2 = true := by
      intro kv hkv
      rw [List.mem_flatMap] at hkv
      obtain ⟨entry, hentry, hkv2⟩ := hkv
      rw [List.mem_map] at hkv2
      obtain ⟨v, hvmem, rfl⟩ := hkv2
      obtain ⟨_, hkb, hvb⟩ := hwf.2 entry hentry
      exact ⟨hkb, hvb v hvmem⟩
    have hnoamp : ∀ pc ∈ vs.flatMap (fun kv => kv.2.map (encPair kv.1)), (38 : Nat) ∉ pc := by
      intro pc hpc
      rw [List.mem_flatMap] at hpc
      obtain ⟨entry, hentry, hpc2⟩ := hpc
      rw [List.mem_map] at hpc2
      obtain ⟨v, hvmem, rfl⟩ := hpc2
      obtain ⟨_, hkb, hvb⟩ := hwf.2 entry hentry
      exact encPair_no_amp entry.1 v hkb (hvb v hvmem)
    have hpieces_ne : vs.flatMap (fun kv => kv.2.map (encPair kv.1)) ≠ [] := by
      subst hvs
      obtain ⟨hne, _, _⟩ := hwf.2 p (by simp)
      rcases p with ⟨k, l⟩
      cases l with
      | nil => exact absurd rfl hne
      | cons v0 lt2 => simp
    have hjoin_ne : joinAmp (vs.flatMap (fun kv => kv.2.map (encPair kv.1))) ≠ [] := by
      rcases hps : vs.flatMap (fun kv => kv.2.map (encPair kv.1)) with _ | ⟨pc, pcs⟩
      · exact absurd hps hpieces_ne
      · have hpcne : pc ≠ [] := by
          have hpc : pc ∈ vs.flatMap (fun kv => kv.2.map (encPair kv.1)) := by simp [hps]
          rw [List.mem_flatMap] at hpc
          obtain ⟨entry, hentry, hpc2⟩ := hpc
          rw [List.mem_map] at hpc2
          obtain ⟨v, hvmem, rfl⟩ := hpc2
          exact encPair_ne_nil entry.1 v
        cases pcs with
        | nil => simpa [joinAmp] using hpcne
        | cons q qs => simp [joinAmp]
    rw [← hvs]
    rw [parseQuery, valuesEncode, if_neg hjoin_ne]
    rw [splitOn_joinAmp _ hpieces_ne hnoamp]
    rw [hpairs, foldl_queryStep_encPairs _ [] hpb, foldl_add_allPairs vs hwf]

/-! ### Well-formedness preservation and Values operations -/

theorem hexVal_lt (c v : Nat) (h : hexVal c = some v) : v < 16 := by
  unfold hexVal at h
  by_cases h1 : (48 ≤ c && c ≤ 57) = true
  · rw [if_pos h1] at h
    simp only [Option.some.injEq] at h
    simp only [Bool.and_eq_true, decide_eq_true_eq] at h1
    omega
  · rw [if_neg h1] at h
    by_cases h2 : (65 ≤ c && c ≤ 70) = true
    · rw [if_pos h2] at h
      simp only [Option.some.injEq] at h
      simp only [Bool.and_eq_true, decide_eq_true_eq] at h2
      omega
    · rw [if_neg h2] at h
      by_cases h3 : (97 ≤ c && c ≤ 102) = true
      · rw [if_pos h3] at h
        simp only [Option.some.injEq] at h
        simp only [Bool.and_eq_true, decide_eq_true_eq] at h3
        omega
      · rw [if_neg h3] at h
        simp at h

theorem queryUnescape_bytes (s t : Str) (hs : allBytes s = true)
    (he : queryUnescape s = some t) : allBytes t = true := by
  induction s using queryUnescape.induct generalizing t with
  | case1 =>
    simp only [queryUnescape, Option.some.injEq] at he
    subst he
    rfl
  | case2 rest ih =>
    rw [queryUnescape.eq_def] at he
    simp only [reduceIte] at he
    rcases hq : queryUnescape rest with _ | t2
    · rw [hq] at he; simp at he
    · rw [hq] at he
      simp only [Option.map_some', Option.some.injEq] at he
      subst he
      simp only [allBytes, List.all_cons, Bool.and_eq_true, decide_eq_true_eq]
      refine ⟨by omega, ?_⟩
      have hrest : allBytes rest = true := by
        simp only [allBytes, List.all_cons, Bool.and_eq_true, decide_eq_true_eq] at hs
        simpa [allBytes] using hs.2
      have := ih t2 hrest hq
      simpa [allBytes] using this
  | case3 hby lby rest2 hv lv t2 hq hl2 hh2 hne ih =>
    rw [queryUnescape.eq_def] at he
    simp only [reduceIte] at he
    rw [if_neg hne, hh2, hl2, hq] at he
    simp at he
    subst he
    simp only [allBytes, List.all_cons, Bool.and_eq_true, decide_eq_true_eq]
    have h1 := hexVal_lt _ _ hh2
    have h2 := hexVal_lt _ _ hl2
    refine ⟨by omega, ?_⟩
    have hrest : allBytes rest2 = true := by
      simp only [allBytes, List.all_cons, Bool.and_eq_true, decide_eq_true_eq] at hs
      simpa [allBytes] using hs.2.2.2
    have := ih t2 hrest hq
    simpa [allBytes] using this
  | case4 hby lby rest2 hfall hne ih =>
    exfalso
    rw [queryUnescape.eq_def] at he
    simp only [reduceIte] at he
    rw [if_neg hne] at he
    simp at he
  | case5 rest hshape hne =>
    exfalso
    rw [queryUnescape.eq_def] at he
    simp only [reduceIte] at he
    rw [if_neg hne] at he
    rcases rest with _ | ⟨a, _ | ⟨b, r2⟩⟩
    · simp at he
    · simp at he
    · exact hshape a b r2 rfl
  | case6 c rest h43 h37 ih =>
    rw [queryUnescape.eq_def] at he
    simp only [reduceIte] at he
    rw [if_neg h43, if_neg h37] at he
    rcases hq : queryUnescape rest with _ | t2
    · rw [hq] at he; simp at he
    · rw [hq] at he
      simp only [Option.map_some', Option.some.injEq] at he
      subst he
      simp only [allBytes, List.all_cons, Bool.and_eq_true, decide_eq_true_eq]
      simp only [allBytes, List.all_cons, Bool.and_eq_true, decide_eq_true_eq] at hs
      refine ⟨hs.1, ?_⟩
      have := ih t2 (by simpa [allBytes] using hs.2) hq
      simpa [allBytes] using this

theorem valuesAdd_mem (m : Values) (k v : Str) (kv2 : Str × List Str)
    (h : kv2 ∈ valuesAdd m k v) :
    kv2 = (k, [v]) ∨ kv2 ∈ m ∨ ∃ l, (k, l) ∈ m ∧ kv2 = (k, l ++ [v]) := by
  induction m with
  | nil =>
    simp only [valuesAdd, List.mem_singleton] at h
    exact Or.inl h
  | cons p rest ih =>
    rcases p with ⟨k1, l1⟩
    rw [valuesAdd] at h
    by_cases hk : k = k1
    · subst hk
      rw [if_pos rfl] at h
      rcases List.mem_cons.mp h with h2 | h2
      · exact Or.inr (Or.inr ⟨l1, by simp, h2⟩)
      · exact Or.inr (Or.inl (by simp [h2]))
    · rw [if_neg hk] at h
      by_cases hlt : strLt k k1 = true
      · rw [if_pos hlt] at h
        rcases List.mem_cons.mp h with h2 | h2
        · exact Or.inl h2
        · exact Or.inr (Or.inl h2)
      · rw [if_neg hlt] at h
        rcases List.mem_cons.mp h with h2 | h2
        · exact Or.inr (Or.inl (by simp [h2]))
        · rcases ih h2 with h3 | h3 | ⟨l, hl, h3⟩
          · exact Or.inl h3
          · exact Or.inr (Or.inl (by simp [h3]))
          · exact Or.inr (Or.inr ⟨l, by simp [hl], h3⟩)

theorem valuesAdd_chain (m : Values) (k v : Str)
    (hch : List.Chain' (fun a b => strLt a.1 b.1 = true) m) :
    List.Chain' (fun a b => strLt a.1 b.1 = true) (valuesAdd m k v) := by
  induction m with
  | nil => simp [valuesAdd]
  | cons p rest ih =>
    rcases p with ⟨k1, l1⟩
    rw [valuesAdd]
    by_cases hk : k = k1
    · subst hk
      rw [if_pos rfl]
      rw [List.chain'_cons'] at hch ⊢
      exact hch
    · rw [if_neg hk]
      by_cases hlt : strLt k k1 = true
      · rw [if_pos hlt]
        rw [List.chain'_cons']
        exact ⟨fun b hb => by simp at hb; subst hb; exact hlt, hch⟩
      · rw [if_neg hlt]
        have hgt : strLt k1 k = true := by
          rcases strLt_total k k1 with rfl | h | h
          · exact absurd rfl hk
          · exact absurd h hlt
          · exact h
        rw [List.chain'_cons']
        rcases List.chain'_cons'.mp hch with ⟨hhead, hrest⟩
        refine ⟨?_, ih hrest⟩
        intro b hb
        have hbmem : b ∈ valuesAdd rest k v := List.mem_of_mem_head? hb
        rcases valuesAdd_mem rest k v b hbmem with h3 | h3 | ⟨l, hl, h3⟩
        · subst h3; exact hgt
        · exact wf_head_lt k1 l1 rest hch b h3
        · subst h3
          exact wf_head_lt k1 l1 rest hch (k, l) hl

theorem valuesAdd_WF (m : Values) (k v : Str) (hwf : ValuesWF m)
    (hk : allBytes k = true) (hv : allBytes v = true) : ValuesWF (valuesAdd m k v) := by
  refine ⟨valuesAdd_chain m k v hwf.1, ?_⟩
  intro kv2 hkv2
  rcases valuesAdd_mem m k v kv2 hkv2 with h | h | ⟨l, hl, h⟩
  · subst h
    exact ⟨by simp, hk, by simpa using hv⟩
  · exact hwf.2 kv2 h
  · subst h
    obtain ⟨hne, hkb, hvb⟩ := hwf.2 (k, l) hl
    refine ⟨by simp, hkb, ?_⟩
    intro x hx
    rcases List.mem_append.mp hx with h2 | h2
    · exact hvb x h2
    · simp at h2; subst h2; exact hv

theorem valuesSet_mem (m : Values) (k v : Str) (kv2 : Str × List Str)
    (h : kv2 ∈ valuesSet m k v) : kv2 = (k, [v]) ∨ kv2 ∈ m := by
  induction m with
  | nil =>
    simp only [valuesSet, List.mem_singleton] at h
    exact Or.inl h
  | cons p rest ih =>
    rcases p with ⟨k1, l1⟩
    rw [valuesSet] at h
    by_cases hk : k = k1
    · subst hk
      rw [if_pos rfl] at h
      rcases List.mem_cons.mp h with h2 | h2
      · exact Or.inl h2
      · exact Or.inr (by simp [h2])
    · rw [if_neg hk] at h
      by_cases hlt : strLt k k1 = true
      · rw [if_pos hlt] at h
        rcases List.mem_cons.mp h with h2 | h2
        · exact Or.inl h2
        · exact Or.inr h2
      · rw [if_neg hlt] at h
        rcases List.mem_cons.mp h with h2 | h2
        · exact Or.inr (by simp [h2])
        · rcases ih h2 with h3 | h3
          · exact Or.inl h3
          · exact Or.inr (by simp [h3])

theorem valuesSet_chain (m : Values) (k v : Str)
    (hch : List.Chain' (fun a b => strLt a.1 b.1 = true) m) :
    List.Chain' (fun a b => strLt a.1 b.1 = true) (valuesSet m k v) := by
  induction m with
  | nil => simp [valuesSet]
  | cons p rest ih =>
    rcases p with ⟨k1, l1⟩
    rw [valuesSet]
    by_cases hk : k = k1
    · subst hk
      rw [if_pos rfl]
      rw [List.chain'_cons'] at hch ⊢
      exact hch
    · rw [if_neg hk]
      by_cases hlt : strLt k k1 = true
      · rw [if_pos hlt]
        rw [List.chain'_cons']
        exact ⟨fun b hb => by simp at hb; subst hb; exact hlt, hch⟩
      · rw [if_neg hlt]
        have hgt : strLt k1 k = true := by
          rcases strLt_total k k1 with rfl | h | h
          · exact absurd rfl hk
          · exact absurd h hlt
          · exact h
        rw [List.chain'_cons']
        rcases List.chain'_cons'.mp hch with ⟨hhead, hrest⟩
        refine ⟨?_, ih hrest⟩
        intro b hb
        have hbmem : b ∈ valuesSet rest k v := List.mem_of_mem_head? hb
        rcases valuesSet_mem rest k v b hbmem with h3 | h3
        · subst h3; exact hgt
        · exact wf_head_lt k1 l1 rest hch b h3

theorem valuesSet_WF (m : Values) (k v : Str) (hwf : ValuesWF m)
    (hk : allBytes k = true) (hv : allBytes v = true) : ValuesWF (valuesSet m k v) := by
  refine ⟨valuesSet_chain m k v hwf.1, ?_⟩
  intro kv2 hkv2
  rcases valuesSet_mem m k v kv2 hkv2 with h | h
  · subst h
    exact ⟨by simp, hk, by simpa using hv⟩
  · exact hwf.2 kv2 h

theorem valuesDel_subset (m : Values) (k : Str) (kv2 : Str × List Str)
    (h : kv2 ∈ valuesDel m k) : kv2 ∈ m := by
  induction m with
  | nil => simp [valuesDel] at h
  | cons p rest ih =>
    rcases p with ⟨k1, l1⟩
    rw [valuesDel] at h
    by_cases hk : k = k1
    · rw [if_pos hk] at h
      exact by simp [h]
    · rw [if_neg hk] at h
      rcases List.mem_cons.mp h with h2 | h2
      · simp [h2]
      · simp [ih h2]

theorem valuesDel_WF (m : Values) (k : Str) (hwf : ValuesWF m) :
    ValuesWF (valuesDel m k) := by
  refine ⟨?_, fun kv2 hkv2 => hwf.2 kv2 (valuesDel_subset m k kv2 hkv2)⟩
  have := hwf.1
  clear hwf
  induction m with
  | nil => simp [valuesDel]
  | cons p rest ih =>
    rcases p with ⟨k1, l1⟩
    rw [valuesDel]
    by_cases hk : k = k1
    · rw [if_pos hk]
      exact (List.chain'_cons'.mp this).2
    · rw [if_neg hk]
      rw [List.chain'_cons']
      rcases List.chain'_cons'.mp this with ⟨hhead, hrest⟩
      refine ⟨?_, ih hrest⟩
      intro b hb
      have hbmem : b ∈ valuesDel rest k := List.mem_of_mem_head? hb
      exact wf_head_lt k1 l1 rest this b (valuesDel_subset rest k b hbmem)

theorem queryStep_WF (m : Values) (piece : Str) (hwf : ValuesWF m)
    (hp : allBytes piece = true) : ValuesWF (queryStep m piece) := by
  rw [queryStep]
  split
  · exact hwf
  split
  · exact hwf
  rcases hk : queryUnescape (cutByte 61 piece).1 with _ | k
  · simp only [hk]
    exact hwf
  rcases hv : queryUnescape (cutByte 61 piece).2 with _ | v
  · simp only [hk, hv]
    exact hwf
  simp only [hk, hv]
  have hb : allBytes piece = true := hp
  simp only [allBytes, List.all_eq_true, decide_eq_true_eq] at hb
  have h1b : allBytes (cutByte 61 piece).1 = true := by
    simp only [allBytes, List.all_eq_true, decide_eq_true_eq]
    exact fun c hc => hb c ((cutByte_mem 61 piece).1 c hc)
  have h2b : allBytes (cutByte 61 piece).2 = true := by
    simp only [allBytes, List.all_eq_true, decide_eq_true_eq]
    exact fun c hc => hb c ((cutByte_mem 61 piece).2 c hc)
  exact valuesAdd_WF m k v hwf (queryUnescape_bytes _ k h1b hk) (queryUnescape_bytes _ v h2b hv)

theorem parseQuery_WF (s : Str) (hs : allBytes s = true) : ValuesWF (parseQuery s) := by
  rw [parseQuery]
  split
  · exact ⟨List.chain'_nil, by simp⟩
  have hpieces : ∀ p ∈ splitOnByte 38 s, allBytes p = true := by
    intro p hp
    simp only [allBytes, List.all_eq_true, decide_eq_true_eq] at hs ⊢
    exact fun c hc => hs c (splitOnByte_mem 38 s p hp c hc)
  have hgen : ∀ (ps : List Str) (m : Values), ValuesWF m → (∀ p ∈ ps, allBytes p = true) →
      ValuesWF (ps.foldl queryStep m) := by
    intro ps
    induction ps with
    | nil => exact fun m hm _ => hm
    | cons p rest ih =>
      intro m hm hall
      simp only [List.foldl_cons]
      exact ih _ (queryStep_WF m p hm (hall p (by simp)))
        (fun q hq => hall q (by simp [hq]))
  exact hgen _ [] ⟨List.chain'_nil, by simp⟩ hpieces

/-! ### Operation interplay on Values -/

theorem valuesGet_eq_headD (m : Values) (k : Str) :
    valuesGet m k = (valuesList m k).headD [] := by
  induction m with
  | nil => rfl
  | cons p rest ih =>
    rcases p with ⟨k1, l1⟩
    rw [valuesGet, valuesList]
    by_cases hk : k = k1
    · rw [if_pos hk, if_pos hk]
    · rw [if_neg hk, if_neg hk, ih]

theorem valuesHas_false_list (m : Values) (k : Str) (h : valuesHas m k = false) :
    valuesList m k = [] := by
  induction m with
  | nil => rfl
  | cons p rest ih =>
    rcases p with ⟨k1, l1⟩
    rw [valuesHas] at h
    simp only [Bool.or_eq_false_iff, decide_eq_false_iff_not] at h
    rw [valuesList, if_neg h.1]
    exact ih h.2

theorem valuesHas_false_of_lt (m : Values) (k : Str)
    (h : ∀ kv ∈ m, strLt k kv.1 = true) : valuesHas m k = false := by
  induction m with
  | nil => rfl
  | cons p rest ih =>
    rw [valuesHas]
    simp only [Bool.or_eq_false_iff, decide_eq_false_iff_not]
    constructor
    · intro hk
      have := h p (by simp)
      rw [← hk] at this
      simp [strLt_irrefl] at this
    · exact ih (fun kv hkv => h kv (by simp [hkv]))

theorem valuesList_add_same (m : Values) (k v : Str)
    (hch : List.Chain' (fun a b => strLt a.1 b.1 = true) m) :
    valuesList (valuesAdd m k v) k = valuesList m k ++ [v] := by
  induction m with
  | nil => simp [valuesAdd, valuesList]
  | cons p rest ih =>
    rcases p with ⟨k1, l1⟩
    rw [valuesAdd]
    by_cases hk : k = k1
    · subst hk
      rw [if_pos rfl, valuesList, if_pos rfl, valuesList, if_pos rfl]
    · rw [if_neg hk]
      by_cases hlt : strLt k k1 = true
      · rw [if_pos hlt, valuesList, if_pos rfl, valuesList, if_neg hk]
        rw [valuesHas_false_list rest k (valuesHas_false_of_lt rest k
          (fun kv hkv => strLt_trans k k1 kv.1 hlt (wf_head_lt k1 l1 rest hch kv hkv)))]
        rfl
      · rw [if_neg hlt, valuesList, if_neg hk, valuesList, if_neg hk]
        exact ih (List.chain'_cons'.mp hch).2

theorem valuesList_add_other (m : Values) (k v k2 : Str) (h : k2 ≠ k) :
    valuesList (valuesAdd m k v) k2 = valuesList m k2 := by
  induction m with
  | nil => simp [valuesAdd, valuesList, if_neg h]
  | cons p rest ih =>
    rcases p with ⟨k1, l1⟩
    rw [valuesAdd]
    by_cases hk : k = k1
    · subst hk
      rw [if_pos rfl, valuesList, if_neg h, valuesList, if_neg h]
    · rw [if_neg hk]
      by_cases hlt : strLt k k1 = true
      · rw [if_pos hlt, valuesList, if_neg h]
      · rw [if_neg hlt, valuesList, valuesList]
        by_cases hk2 : k2 = k1
        · rw [if_pos hk2, if_pos hk2]
        · rw [if_neg hk2, if_neg hk2, ih]

theorem valuesDel_add_not_has (m : Values) (k v : Str) (h : valuesHas m k = false) :
    valuesDel (valuesAdd m k v) k = m := by
  induction m with
  | nil => simp [valuesAdd, valuesDel]
  | cons p rest ih =>
    rcases p with ⟨k1, l1⟩
    rw [valuesHas] at h
    simp only [Bool.or_eq_false_iff, decide_eq_false_iff_not] at h
    rw [valuesAdd, if_neg h.1]
    by_cases hlt : strLt k k1 = true
    · rw [if_pos hlt, valuesDel, if_pos rfl]
    · rw [if_neg hlt, valuesDel, if_neg h.1, ih h.2]

theorem valuesList_set_same (m : Values) (k v : Str) :
    valuesList (valuesSet m k v) k = [v] := by
  induction m with
  | nil => simp [valuesSet, valuesList]
  | cons p rest ih =>
    rcases p with ⟨k1, l1⟩
    rw [valuesSet]
    by_cases hk : k = k1
    · subst hk
      rw [if_pos rfl, valuesList, if_pos rfl]
    · rw [if_neg hk]
      by_cases hlt : strLt k k1 = true
      · rw [if_pos hlt, valuesList, if_pos rfl]
      · rw [if_neg hlt, valuesList, if_neg hk, ih]

theorem valuesList_set_other (m : Values) (k v k2 : Str) (h : k2 ≠ k) :
    valuesList (valuesSet m k v) k2 = valuesList m k2 := by
  induction m with
  | nil => simp [valuesSet, valuesList, if_neg h]
  | cons p rest ih =>
    rcases p with ⟨k1, l1⟩
    rw [valuesSet]
    by_cases hk : k = k1
    · subst hk
      rw [if_pos rfl, valuesList, if_neg h, valuesList, if_neg h]
    · rw [if_neg hk]
      by_cases hlt : strLt k k1 = true
      · rw [if_pos hlt, valuesList, if_neg h]
      · rw [if_neg hlt, valuesList, valuesList]
        by_cases hk2 : k2 = k1
        · rw [if_pos hk2, if_pos hk2]
        · rw [if_neg hk2, if_neg hk2, ih]

theorem valuesHas_of_list_ne (m : Values) (k : Str) (h : valuesList m k ≠ []) :
    valuesHas m k = true := by
  induction m with
  | nil => simp [valuesList] at h
  | cons p rest ih =>
    rcases p with ⟨k1, l1⟩
    rw [valuesHas]
    rw [valuesList] at h
    by_cases hk : k = k1
    · simp [hk]
    · rw [if_neg hk] at h
      simp [ih h]

theorem valuesSet_front (m : Values) (k w : Str)
    (h : ∀ kv ∈ m, strLt k kv.1 = true) : valuesSet m k w = (k, [w]) :: m := by
  cases m with
  | nil => rfl
  | cons p rest =>
    rcases p with ⟨k1, l1⟩
    have h1 := h (k1, l1) (by simp)
    rw [valuesSet]
    rw [if_neg (by rintro rfl; simp [strLt_irrefl] at h1), if_pos h1]

theorem valuesSet_del_comm (m : Values) (k w sig : Str) (hk : k ≠ sig)
    (hch : List.Chain' (fun a b => strLt a.1 b.1 = true) m) :
    valuesDel (valuesSet m k w) sig = valuesSet (valuesDel m sig) k w := by
  induction m with
  | nil =>
    simp only [valuesSet, valuesDel]
    rw [if_neg (fun hc => hk hc.symm)]
  | cons p rest ih =>
    rcases p with ⟨k1, l1⟩
    have hrest := (List.chain'_cons'.mp hch).2
    by_cases hk1 : k = k1
    · subst hk1
      have hL : valuesDel (valuesSet ((k, l1) :: rest) k w) sig =
          (k, [w]) :: valuesDel rest sig := by
        rw [valuesSet, if_pos rfl, valuesDel, if_neg (fun hc => hk hc.symm)]
      have hR : valuesSet (valuesDel ((k, l1) :: rest) sig) k w =
          (k, [w]) :: valuesDel rest sig := by
        rw [valuesDel, if_neg (fun hc => hk hc.symm), valuesSet, if_pos rfl]
      rw [hL, hR]
    · by_cases hsig1 : sig = k1
      · subst hsig1
        by_cases hlt : strLt k sig = true
        · have hL : valuesDel (valuesSet ((sig, l1) :: rest) k w) sig =
              (k, [w]) :: rest := by
            rw [valuesSet, if_neg hk1, if_pos hlt, valuesDel,
              if_neg (fun hc => hk hc.symm), valuesDel, if_pos rfl]
          have hR : valuesSet (valuesDel ((sig, l1) :: rest) sig) k w =
              (k, [w]) :: rest := by
            rw [valuesDel, if_pos rfl]
            exact valuesSet_front rest k w (fun kv hkv =>
              strLt_trans k sig kv.1 hlt (wf_head_lt sig l1 rest hch kv hkv))
          rw [hL, hR]
        · have hL : valuesDel (valuesSet ((sig, l1) :: rest) k w) sig =
              valuesSet rest k w := by
            rw [valuesSet, if_neg hk1, if_neg hlt, valuesDel, if_pos rfl]
          have hR : valuesSet (valuesDel ((sig, l1) :: rest) sig) k w =
              valuesSet rest k w := by
            rw [valuesDel, if_pos rfl]
          rw [hL, hR]
      · by_cases hlt : strLt k k1 = true
        · have hL : valuesDel (valuesSet ((k1, l1) :: rest) k w) sig =
              (k, [w]) :: (k1, l1) :: valuesDel rest sig := by
            rw [valuesSet, if_neg hk1, if_pos hlt, valuesDel,
              if_neg (fun hc => hk hc.symm), valuesDel, if_neg hsig1]
          have hR : valuesSet (valuesDel ((k1, l1) :: rest) sig) k w =
              (k, [w]) :: (k1, l1) :: valuesDel rest sig := by
            rw [valuesDel, if_neg hsig1, valuesSet, if_neg hk1, if_pos hlt]
          rw [hL, hR]
        · have hL : valuesDel (valuesSet ((k1, l1) :: rest) k w) sig =
              (k1, l1) :: valuesDel (valuesSet rest k w) sig := by
            rw [valuesSet, if_neg hk1, if_neg hlt, valuesDel, if_neg hsig1]
          have hR : valuesSet (valuesDel ((k1, l1) :: rest) sig) k w =
              (k1, l1) :: valuesSet (valuesDel rest sig) k w := by
            rw [valuesDel, if_neg hsig1, valuesSet, if_neg hk1, if_neg hlt]
          rw [hL, hR, ih hrest]

/-! ### From signing to verifying: the signed URL in normal form -/

theorem b64encode_mem (s : Str) (hs : allBytes s = true) (x : Nat) (hx : x ∈ b64encode s) :
    ∃ n, n < 64 ∧ x = b64char n := by
  induction s using b64encode.induct with
  | case1 => simp [b64encode] at hx
  | case2 b1 =>
    simp only [allBytes, List.all_eq_true, decide_eq_true_eq] at hs
    have h1 : b1 < 256 := hs b1 (by simp)
    rw [b64encode] at hx
    rcases List.mem_cons.mp hx with h | h
    · exact ⟨b1 / 4, by omega, h⟩
    · rcases List.mem_cons.mp h with h2 | h2
      · exact ⟨b1 % 4 * 16, by omega, h2⟩
      · simp at h2
  | case3 b1 b2 =>
    simp only [allBytes, List.all_eq_true, decide_eq_true_eq] at hs
    have h1 : b1 < 256 := hs b1 (by simp)
    have h2 : b2 < 256 := hs b2 (by simp)
    rw [b64encode] at hx
    rcases List.mem_cons.mp hx with h | h
    · exact ⟨b1 / 4, by omega, h⟩
    rcases List.mem_cons.mp h with h | h
    · exact ⟨b1 % 4 * 16 + b2 / 16, by omega, h⟩
    rcases List.mem_cons.mp h with h | h
    · exact ⟨b2 % 16 * 4, by omega, h⟩
    · simp at h
  | case4 b1 b2 b3 rest ih =>
    simp only [allBytes, List.all_cons, Bool.and_eq_true, decide_eq_true_eq] at hs
    obtain ⟨h1, h2, h3, hrest⟩ := hs
    rw [b64encode] at hx
    rcases List.mem_cons.mp hx with h | h
    · exact ⟨b1 / 4, by omega, h⟩
    rcases List.mem_cons.mp h with h | h
    · exact ⟨b1 % 4 * 16 + b2 / 16, by omega, h⟩
    rcases List.mem_cons.mp h with h | h
    · exact ⟨b2 % 16 * 4 + b3 / 64, by omega, h⟩
    rcases List.mem_cons.mp h with h | h
    · exact ⟨b3 % 64, by omega, h⟩
    · exact ih (by simpa [allBytes] using hrest) h

theorem b64encode_eq_nil_iff (s : Str) : b64encode s = [] ↔ s = [] := by
  constructor
  · intro h
    cases s with
    | nil => rfl
    | cons b1 rest =>
      rcases rest with _ | ⟨b2, _ | ⟨b3, r⟩⟩ <;> simp [b64encode] at h
  · rintro rfl
    rfl

theorem b64char_not_crlf : ∀ n, n < 64 → b64char n ≠ 13 ∧ b64char n ≠ 10 := by decide

theorem b64encode_filter_crlf (s : Str) (hs : allBytes s = true) :
    (b64encode s).filter (fun c => !(c == 13 || c == 10)) = b64encode s := by
  apply List.filter_eq_self.mpr
  intro x hx
  obtain ⟨n, hn, rfl⟩ := b64encode_mem s hs x hx
  obtain ⟨h13, h10⟩ := b64char_not_crlf n hn
  simp [h13, h10]

theorem b64decode_b64encode (s : Str) (h : allBytes s = true) :
    b64decode (b64encode s) = some s := by
  rw [b64decode, b64encode_filter_crlf s h]
  exact b64decodeRun_b64encode s h

theorem signature_bytes : allBytes Signature = true := by decide

theorem expiration_bytes : allBytes Expiration = true := by decide

theorem expiration_ne_signature : Expiration ≠ Signature := by decide

theorem sigText_facts (x : Nat) (hx : x ∈ Signature) :
    x ≠ 38 ∧ x ≠ 61 ∧ x ≠ 59 ∧ x ≠ 43 ∧ x ≠ 37 := by
  revert x
  decide

theorem sigPiece_facts (sig : Str) (hsig : ∀ x ∈ sig, ∃ n, n < 64 ∧ x = b64char n) :
    ∀ x ∈ Signature ++ 61 :: sig, (x ≠ 38 ∧ x ≠ 59) ∧ (x = 61 → x ∈ ([61] : Str)) := by
  intro x hx
  rcases List.mem_append.mp hx with h | h
  · have := sigText_facts x h
    exact ⟨⟨this.1, this.2.2.1⟩, fun he => absurd he this.2.1⟩
  · rcases List.mem_cons.mp h with h2 | h2
    · subst h2
      exact ⟨⟨by omega, by omega⟩, fun _ => by simp⟩
    · obtain ⟨n, hn, rfl⟩ := hsig x h2
      have := b64char_safe n hn
      exact ⟨⟨this.1, this.2.2.1⟩, fun he => absurd he this.2.1⟩

theorem queryUnescape_sig (sig : Str) (hsig : ∀ x ∈ sig, ∃ n, n < 64 ∧ x = b64char n) :
    queryUnescape sig = some sig := by
  apply queryUnescape_plain
  intro c hc
  obtain ⟨n, hn, rfl⟩ := hsig c hc
  have := b64char_safe n hn
  exact ⟨this.2.2.2.2.2.1, this.2.2.2.2.2.2.1⟩

theorem queryStep_sigPiece (m : Values) (sig : Str)
    (hsig : ∀ x ∈ sig, ∃ n, n < 64 ∧ x = b64char n) :
    queryStep m (Signature ++ 61 :: sig) = valuesAdd m Signature sig := by
  rw [queryStep]
  rw [if_neg (by cases h : queryEscape Signature <;> simp [Signature, str])]
  have hsemi : (Signature ++ 61 :: sig).contains 59 = false := by
    apply contains_59_eq_false
    intro hmem
    have := sigPiece_facts sig hsig 59 hmem
    exact this.1.2 rfl
  rw [hsemi]
  simp only [Bool.false_eq_true, if_false]
  have hcut : cutByte 61 (Signature ++ 61 :: sig) = (Signature, sig) := by
    apply cutByte_sep
    intro hmem
    exact (sigText_facts 61 hmem).2.1 rfl
  rw [hcut]
  simp only []
  rw [show queryUnescape Signature = some Signature from by decide,
    queryUnescape_sig sig hsig]

theorem splitOnByte_ne_nil (sep : Nat) (s : Str) : splitOnByte sep s ≠ [] := by
  cases s with
  | nil => simp [splitOnByte]
  | cons c rest =>
    rw [splitOnByte]
    rcases h : splitOnByte sep rest with _ | ⟨p, ps⟩
    · simp
    · by_cases hc : c = sep <;> simp [hc]

theorem splitOnByte_append (a b : Str) :
    splitOnByte 38 (a ++ 38 :: b) = splitOnByte 38 a ++ splitOnByte 38 b := by
  induction a with
  | nil =>
    rw [List.nil_append, splitOnByte]
    rcases h : splitOnByte 38 b with _ | ⟨p, ps⟩
    · exact absurd h (splitOnByte_ne_nil 38 b)
    · rw [splitOnByte, h]
      simp
  | cons c rest ih =>
    rw [List.cons_append, splitOnByte, ih]
    rcases h : splitOnByte 38 rest with _ | ⟨p, ps⟩
    · exact absurd h (splitOnByte_ne_nil 38 rest)
    · rw [splitOnByte, h]
      by_cases hc : c = 38 <;> simp [hc]

theorem parseQuery_append_piece (raw piece : Str) (hraw : raw ≠ [])
    (hpiece : (38 : Nat) ∉ piece) :
    parseQuery (raw ++ 38 :: piece) = queryStep (parseQuery raw) piece := by
  rw [parseQuery, if_neg (by simp [hraw]), splitOnByte_append,
    splitOnByte_no_sep 38 piece hpiece, List.foldl_append]
  rw [parseQuery, if_neg hraw]
  rfl

theorem isDigitByte_lt (c : Nat) (h : isDigitByte c = true) : c < 256 := by
  simp only [isDigitByte, Bool.and_eq_true, decide_eq_true_eq] at h
  omega

theorem formatRFC3339Nano_bytes (t : Nat) : allBytes (formatRFC3339Nano t) = true := by
  simp only [allBytes, List.all_eq_true, decide_eq_true_eq]
  intro c hc
  simp only [formatRFC3339Nano, List.mem_append, List.mem_cons] at hc
  rcases hc with ((((((hc | hc) | hc) | hc) | hc) | hc) | hc) | hc
  · exact isDigitByte_lt c (pad_digits 4 _ c hc)
  · rcases hc with rfl | hc
    · omega
    · exact isDigitByte_lt c (pad_digits 2 _ c hc)
  · rcases hc with rfl | hc
    · omega
    · exact isDigitByte_lt c (pad_digits 2 _ c hc)
  · rcases hc with rfl | hc
    · omega
    · exact isDigitByte_lt c (pad_digits 2 _ c hc)
  · rcases hc with rfl | hc
    · omega
    · exact isDigitByte_lt c (pad_digits 2 _ c hc)
  · rcases hc with rfl | hc
    · omega
    · exact isDigitByte_lt c (pad_digits 2 _ c hc)
  · rw [fracPart] at hc
    split at hc
    · simp at hc
    · rcases List.mem_cons.mp hc with rfl | hc2
      · omega
      · exact isDigitByte_lt c (pad_digits 9 _ c (dropTrailingZeros_mem _ c hc2))
  · simp at hc
    omega

theorem formatRFC3339Nano_ne_nil (t : Nat) : formatRFC3339Nano t ≠ [] := by
  simp only [formatRFC3339Nano]
  intro h
  have := congrArg List.length h
  simp [pad_length] at this

theorem valuesList_ne_of_has (m : Values) (k : Str) (hwf : ValuesWF m)
    (h : valuesHas m k = true) : valuesList m k ≠ [] := by
  induction m with
  | nil => simp [valuesHas] at h
  | cons p rest ih =>
    rcases p with ⟨k1, l1⟩
    rw [valuesHas] at h
    rw [valuesList]
    by_cases hk : k = k1
    · rw [if_pos hk]
      exact (hwf.2 (k1, l1) (by simp)).1
    · rw [if_neg hk]
      simp only [Bool.or_eq_true, decide_eq_true_eq] at h
      rcases h with h | h
      · exact absurd h hk
      · exact ih ⟨(List.chain'_cons'.mp hwf.1).2,
          fun kv hkv => hwf.2 kv (by simp [hkv])⟩ h

theorem valuesEncode_eq_nil_iff (vs : Values) (hwf : ValuesWF vs) :
    valuesEncode vs = [] ↔ vs = [] := by
  constructor
  · intro h
    cases hvs : vs with
    | nil => rfl
    | cons p rest =>
      exfalso
      subst hvs
      obtain ⟨hne, _, _⟩ := hwf.2 p (by simp)
      rcases p with ⟨k, l⟩
      cases l with
      | nil => exact hne rfl
      | cons v0 lt2 =>
        rw [valuesEncode] at h
        simp only [List.flatMap_cons, List.map_cons, List.cons_append] at h
        rcases hrest : (lt2.map (encPair k) ++
            rest.flatMap (fun kv => kv.2.map (encPair kv.1))) with _ | ⟨q, qs⟩
        · rw [hrest] at h
          exact encPair_ne_nil k v0 (by simpa [joinAmp] using h)
        · rw [hrest, joinAmp_cons _ _ (by simp)] at h
          simp only [List.append_eq_nil] at h
          exact encPair_ne_nil k v0 h.1
  · rintro rfl
    rfl

theorem cutByte_no_sep (sep : Nat) (s : Str) (h : sep ∉ s) : cutByte sep s = (s, []) := by
  induction s with
  | nil => rfl
  | cons c rest ih =>
    rw [cutByte, if_neg (fun hc => h (by simp [hc])), ih (fun hc => h (by simp [hc]))]

theorem getLast_append_right (l1 l2 : Str) (h : l2 ≠ []) :
    (l1 ++ l2).getLast? = l2.getLast? := by
  induction l1 with
  | nil => rfl
  | cons a t ih =>
    cases hc : t ++ l2 with
    | nil =>
      rcases List.append_eq_nil.mp hc with ⟨-, h2⟩
      exact absurd h2 h
    | cons b u =>
      rw [List.cons_append, hc, List.getLast?_cons_cons, ← hc, ih]

theorem getLast_mem (l : Str) (a : Nat) (h : l.getLast? = some a) : a ∈ l := by
  induction l with
  | nil => simp [List.getLast?] at h
  | cons x t ih =>
    cases t with
    | nil =>
      simp only [List.getLast?_singleton, Option.some.injEq] at h
      simp [h]
    | cons y u =>
      rw [List.getLast?_cons_cons] at h
      exact List.mem_cons_of_mem _ (ih h)

theorem signature_no_35 : (35 : Nat) ∉ Signature := by decide

theorem sigPiece_no_35 (sig : Str) (hsig : ∀ x ∈ sig, ∃ n, n < 64 ∧ x = b64char n) :
    (35 : Nat) ∉ Signature ++ 61 :: sig := by
  intro hx
  rcases List.mem_append.mp hx with h | h
  · exact signature_no_35 h
  · rcases List.mem_cons.mp h with h | h
    · exact absurd h (by decide)
    · obtain ⟨n, hn, hc⟩ := hsig 35 h
      exact (b64char_safe n hn).2.2.2.2.1 hc.symm

theorem joinAmp_mem (ps : List Str) (x : Nat) (hx : x ∈ joinAmp ps) :
    x = 38 ∨ ∃ p ∈ ps, x ∈ p := by
  induction ps with
  | nil => simp [joinAmp] at hx
  | cons p ps ih =>
    cases ps with
    | nil =>
      rw [joinAmp] at hx
      exact Or.inr ⟨p, by simp, hx⟩
    | cons q qs =>
      rw [joinAmp_cons p (q :: qs) (by simp)] at hx
      rcases List.mem_append.mp hx with h | h
      · exact Or.inr ⟨p, by simp, h⟩
      · rcases List.mem_cons.mp h with h | h
        · exact Or.inl h
        · rcases ih h with h2 | ⟨r, hr, hxr⟩
          · exact Or.inl h2
          · exact Or.inr ⟨r, by simp [hr], hxr⟩

theorem valuesEncode_no_35 (vs : Values) (hwf : ValuesWF vs) :
    (35 : Nat) ∉ valuesEncode vs := by
  intro hx
  rcases joinAmp_mem _ _ hx with h | ⟨p, hp, hxp⟩
  · exact absurd h (by decide)
  · simp only [List.mem_flatMap, List.mem_map] at hp
    obtain ⟨kv, hkv, v, hv, rfl⟩ := hp
    rcases encPair_mem kv.1 v (hwf.2 kv hkv).2.1 ((hwf.2 kv hkv).2.2 v hv) 35 hxp with
      h | h | h
    · exact absurd h (by decide)
    · exact (queryEscape_mem _ (hwf.2 kv hkv).2.1 35 h).2.2.2.2.1 rfl
    · exact (queryEscape_mem _ ((hwf.2 kv hkv).2.2 v hv) 35 h).2.2.2.2.1 rfl

theorem valuesSet_ne_nil (m : Values) (k v : Str) : valuesSet m k v ≠ [] := by
  cases m with
  | nil => simp [valuesSet]
  | cons p rest =>
    rcases p with ⟨k1, l1⟩
    rw [valuesSet]
    split
    · simp
    · split <;> simp

theorem urlString_force_irrel (b r g : Str) (f : Bool) (h : r ≠ []) :
    urlString ⟨b, r, f, g⟩ = urlString ⟨b, r, false, g⟩ := by
  rw [urlString, urlString]
  have hr : r.isEmpty = false := by simp [h]
  simp only [hr, Bool.not_false, Bool.or_true, Bool.false_or]

theorem urlString_ne_of_query (b g r1 r2 : Str) (f1 f2 : Bool)
    (h1 : r1 ≠ []) (hne : r1 ≠ r2) :
    urlString ⟨b, r1, f1, g⟩ ≠ urlString ⟨b, r2, f2, g⟩ := by
  intro hcon
  rw [urlString, urlString] at hcon
  rw [if_pos (show (f1 || !r1.isEmpty) = true by cases f1 <;> simp [h1])] at hcon
  by_cases h2 : (f2 || !r2.isEmpty) = true
  · rw [if_pos h2] at hcon
    have hc1 := List.append_cancel_right hcon
    have hc2 := List.append_cancel_left hc1
    rw [List.cons.injEq] at hc2
    exact hne hc2.2
  · rw [if_neg h2] at hcon
    have hlen := congrArg List.length hcon
    simp only [List.length_append, List.length_cons, List.length_nil] at hlen
    omega

theorem parseURL_std (b r g : Str) (f : Bool) (hb63 : (63 : Nat) ∉ b)
    (hb35 : (35 : Nat) ∉ b) (hr35 : (35 : Nat) ∉ r) (hrne : r ≠ [])
    (hrl : r.getLast? ≠ some 63) :
    parseURL (urlString ⟨b, r, f, g⟩) = ⟨b, r, false, g⟩ := by
  rw [urlString]
  rw [if_pos (show (f || !r.isEmpty) = true by cases f <;> simp [hrne])]
  have hno35 : (35 : Nat) ∉ b ++ 63 :: r := by
    intro hx
    rcases List.mem_append.mp hx with h | h
    · exact hb35 h
    · rcases List.mem_cons.mp h with h | h
      · exact absurd h (by decide)
      · exact hr35 h
  have hcut35 : cutByte 35 (b ++ 63 :: r ++ (if g = [] then [] else 35 :: g)) =
      (b ++ 63 :: r, g) := by
    by_cases hg : g = []
    · subst hg
      rw [if_pos rfl, List.append_nil]
      exact cutByte_no_sep 35 _ hno35
    · rw [if_neg hg]
      exact cutByte_sep 35 _ _ hno35
  rw [parseURL]
  simp only [hcut35]
  rw [if_neg (fun hc => hrl (by
    have h1 := hc.1
    rw [show b ++ 63 :: r = (b ++ [63]) ++ r by simp] at h1
    rw [getLast_append_right (b ++ [63]) r hrne] at h1
    exact h1))]
  rw [cutByte_sep 63 b r hb63]

set_option maxHeartbeats 1000000 in
/-- Normal form of signing followed by re-parsing and verifying: for any
well-formed URL whose query carries no signature parameter, `Sign` succeeds,
the signed URL parses back to the same base and fragment with the canonical
query plus the appended signature, and — except in the degenerate case of a
force-query URL whose canonical query is empty, where the MACed and
recomputed messages genuinely differ — `Verify` under any clock that shares
the MAC extracts and validates the signature and reduces to the expiry check
of the canonical signed query, returning the URL rewritten to that canonical
signature-free query. -/
theorem sign_verify_normal (mac : Str → Str) (Ss Sv : HMACSigner) (u : URL) (D : Nat)
    (hss : Ss.hasher = some mac) (hsv : Sv.hasher = some mac)
    (hmb : ∀ s, allBytes (mac s) = true) (hmn : ∀ s, mac s ≠ [])
    (hqb : allBytes u.rawQuery = true) (hbase : (63 : Nat) ∉ u.base)
    (hbase35 : (35 : Nat) ∉ u.base)
    (hnosig : valuesHas (parseQuery u.rawQuery) Signature = false) :
    ∃ signed, Sign Ss u D = SignResult.ok signed ∧
      parseQuery (parseURL signed).rawQuery =
        valuesAdd (signQuery Ss u D) Signature
          (b64encode (mac (urlString ⟨u.base, valuesEncode (signQuery Ss u D),
            u.forceQuery, u.fragment⟩))) ∧
      (u.forceQuery = false ∨ valuesEncode (signQuery Ss u D) ≠ [] →
        Verify Sv (parseURL signed) =
          (verifyExpiration Sv (signQuery Ss u D),
           URL.mk u.base (valuesEncode (signQuery Ss u D)) false u.fragment)) := by
  have hqWF := parseQuery_WF u.rawQuery hqb
  have hq2WF : ValuesWF (signQuery Ss u D) := by
    rw [signQuery]
    split
    · exact valuesSet_WF _ _ _ hqWF expiration_bytes (formatRFC3339Nano_bytes _)
    · exact hqWF
  have hnosig2 : valuesHas (signQuery Ss u D) Signature = false := by
    rw [signQuery]
    split
    · by_contra hcon
      rw [Bool.not_eq_false] at hcon
      have h1 := valuesList_ne_of_has _ _ (valuesSet_WF _ _ _ hqWF expiration_bytes
        (formatRFC3339Nano_bytes _)) hcon
      rw [valuesList_set_other _ _ _ _ (fun hc => expiration_ne_signature hc.symm)] at h1
      exact h1 (valuesHas_false_list _ _ hnosig)
    · exact hnosig
  set q2 := signQuery Ss u D with hq2def
  set raw := valuesEncode q2 with hrawdef
  set msg := urlString ⟨u.base, raw, u.forceQuery, u.fragment⟩ with hmsgdef
  set sig := b64encode (mac msg) with hsigdef
  have hsigmem : ∀ x ∈ sig, ∃ n, n < 64 ∧ x = b64char n := by
    intro x hx
    exact b64encode_mem (mac msg) (hmb msg) x hx
  have hsigne : sig ≠ [] := by
    rw [hsigdef]
    intro hcon
    exact hmn msg ((b64encode_eq_nil_iff (mac msg)).mp hcon)
  have hpiece_no_amp : (38 : Nat) ∉ Signature ++ 61 :: sig := by
    intro hmem
    exact (sigPiece_facts sig hsigmem 38 hmem).1.1 rfl
  have hsignbody : Sign Ss u D = SignResult.ok (urlString ⟨u.base,
      (if raw.length > 0 then raw ++ 38 :: (Signature ++ 61 :: sig)
      else Signature ++ 61 :: sig), u.forceQuery, u.fragment⟩) := by
    rw [Sign, hss]
    rfl
  have hparse2 : parseQuery (if raw.length > 0 then raw ++ 38 :: (Signature ++ 61 :: sig)
      else Signature ++ 61 :: sig) = valuesAdd q2 Signature sig := by
    by_cases hraw : raw = []
    · rw [if_neg (by simp [hraw])]
      have hq2nil : q2 = [] := (valuesEncode_eq_nil_iff q2 hq2WF).mp hraw
      rw [parseQuery, if_neg (by
        cases h : queryEscape Signature <;> simp [Signature, str])]
      rw [splitOnByte_no_sep 38 _ hpiece_no_amp]
      simp only [List.foldl_cons, List.foldl_nil]
      rw [queryStep_sigPiece [] sig hsigmem, hq2nil]
    · rw [if_pos (by simp [List.length_pos]; exact hraw)]
      rw [parseQuery_append_piece raw _ hraw hpiece_no_amp]
      rw [hrawdef, parseQuery_valuesEncode q2 hq2WF]
      exact queryStep_sigPiece q2 sig hsigmem
  have hraw2ne : (if raw.length > 0 then raw ++ 38 :: (Signature ++ 61 :: sig)
      else Signature ++ 61 :: sig) ≠ [] := by
    split
    · simp
    · cases h : Signature <;> simp [h]
  have hsig_last : ∀ pre : Str, (pre ++ sig).getLast? ≠ some 63 := by
    intro pre hcon
    rw [getLast_append_right pre sig hsigne] at hcon
    obtain ⟨n, hn, hc⟩ := hsigmem 63 (getLast_mem sig 63 hcon)
    exact (b64char_safe n hn).2.2.2.1 hc.symm
  have hraw2last : (if raw.length > 0 then raw ++ 38 :: (Signature ++ 61 :: sig)
      else Signature ++ 61 :: sig).getLast? ≠ some 63 := by
    split
    · rw [show raw ++ 38 :: (Signature ++ 61 :: sig) =
        (raw ++ 38 :: Signature ++ [61]) ++ sig by simp [List.append_assoc]]
      exact hsig_last _
    · rw [show Signature ++ 61 :: sig = (Signature ++ [61]) ++ sig by
        simp [List.append_assoc]]
      exact hsig_last _
  have hraw2_35 : (35 : Nat) ∉ (if raw.length > 0 then raw ++ 38 :: (Signature ++ 61 :: sig)
      else Signature ++ 61 :: sig) := by
    have hp35 := sigPiece_no_35 sig hsigmem
    split
    · intro hx
      rcases List.mem_append.mp hx with h | h
      · exact valuesEncode_no_35 q2 hq2WF h
      · rcases List.mem_cons.mp h with h | h
        · exact absurd h (by decide)
        · exact hp35 h
    · exact hp35
  have hparseURL : parseURL (urlString ⟨u.base,
      (if raw.length > 0 then raw ++ 38 :: (Signature ++ 61 :: sig)
      else Signature ++ 61 :: sig), u.forceQuery, u.fragment⟩) = ⟨u.base,
      (if raw.length > 0 then raw ++ 38 :: (Signature ++ 61 :: sig)
      else Signature ++ 61 :: sig), false, u.fragment⟩ :=
    parseURL_std u.base _ u.fragment u.forceQuery hbase hbase35 hraw2_35 hraw2ne hraw2last
  refine ⟨_, hsignbody, ?_, ?_⟩
  · rw [hparseURL]
    exact hparse2
  intro hforce
  rw [hparseURL]
  rw [Verify]
  simp only [hparse2]
  have hlist : valuesList (valuesAdd q2 Signature sig) Signature =
      [sig] := by
    rw [valuesList_add_same q2 Signature sig hq2WF.1,
      valuesHas_false_list q2 Signature hnosig2]
    rfl
  have hget : valuesGet (valuesAdd q2 Signature sig) Signature = sig := by
    rw [valuesGet_eq_headD, hlist]
    rfl
  rw [extractAndDecodeSignature]
  simp only [hget]
  rw [if_neg hsigne, hsigdef, b64decode_b64encode (mac msg) (hmb msg)]
  simp only []
  rw [valuesDel_add_not_has q2 Signature sig hnosig2]
  rw [hsv]
  simp only []
  rw [← hrawdef]
  have hmsgeq : urlString ⟨u.base, raw, false, u.fragment⟩ = msg := by
    rcases hforce with hf | hne
    · rw [hmsgdef, hf]
    · exact (urlString_force_irrel u.base raw u.fragment u.forceQuery hne).symm
  rw [verifyMAC, hmsgeq]
  rw [if_pos (beq_self_eq_true (mac msg))]

/-! ### Helper lemmas for the claim theorems -/

theorem macHash_fold_lt (s : Str) (a : Nat) (ha : a < 251) :
    s.foldl (fun a c => (a * 31 + c) % 251) a < 251 := by
  induction s generalizing a with
  | nil => exact ha
  | cons c t ih =>
    rw [List.foldl_cons]
    exact ih _ (Nat.mod_lt _ (by omega))

theorem macHash_bytes : ∀ s, allBytes (macHash s) = true := by
  intro s
  have h := macHash_fold_lt s 7 (by omega)
  simp only [macHash, allBytes, List.all_cons, List.all_nil, Bool.and_true,
    decide_eq_true_eq]
  omega

theorem macHash_ne_nil : ∀ s, macHash s ≠ [] := by
  intro s h
  simp [macHash] at h

theorem macConstA_bytes : ∀ s, allBytes (macConstA s) = true := fun _ => rfl

theorem macConstA_ne_nil : ∀ s, macConstA s ≠ [] := by
  intro s h
  simp [macConstA] at h

theorem encL_bytes : ∀ s, allBytes (encL s) = true := by
  intro s
  induction s with
  | nil => rfl
  | cons n t ih =>
    rw [encL]
    simp only [allBytes, List.all_cons, List.all_append, Bool.and_eq_true,
      decide_eq_true_eq] at ih ⊢
    refine ⟨by omega, ?_, ih⟩
    simp only [List.all_eq_true, decide_eq_true_eq]
    intro x hx
    rw [List.eq_of_mem_replicate hx]
    omega

theorem encL_ne_nil : ∀ s, encL s ≠ [] := by
  intro s
  cases s <;> simp [encL]

theorem encL_head_ne_48 (t : Str) : ∀ c r, encL t = c :: r → c ≠ 48 := by
  cases t with
  | nil =>
    intro c r h
    rw [encL, List.cons.injEq] at h
    obtain ⟨h1, -⟩ := h
    omega
  | cons n u =>
    intro c r h
    rw [encL, List.cons.injEq] at h
    obtain ⟨h1, -⟩ := h
    omega

theorem replicate48_cancel (n : Nat) : ∀ (m : Nat) (x y : Str),
    (∀ c r, x = c :: r → c ≠ 48) → (∀ c r, y = c :: r → c ≠ 48) →
    List.replicate n 48 ++ x = List.replicate m 48 ++ y → n = m ∧ x = y := by
  induction n with
  | zero =>
    intro m x y hx hy h
    cases m with
    | zero => exact ⟨rfl, h⟩
    | succ m =>
      simp only [List.replicate_succ, List.replicate_zero, List.nil_append,
        List.cons_append] at h
      exact absurd rfl (hx _ _ h)
  | succ n ih =>
    intro m x y hx hy h
    cases m with
    | zero =>
      simp only [List.replicate_succ, List.replicate_zero, List.nil_append,
        List.cons_append] at h
      exact absurd rfl (hy _ _ h.symm)
    | succ m =>
      simp only [List.replicate_succ, List.cons_append, List.cons.injEq,
        true_and] at h
      obtain ⟨h1, h2⟩ := ih m x y hx hy h
      exact ⟨by omega, h2⟩

theorem encL_inj : ∀ a b, encL a = encL b → a = b := by
  intro a
  induction a with
  | nil =>
    intro b h
    cases b with
    | nil => rfl
    | cons m u =>
      rw [encL, encL, List.cons.injEq] at h
      obtain ⟨h1, -⟩ := h
      omega
  | cons n t ih =>
    intro b h
    cases b with
    | nil =>
      rw [encL, encL, List.cons.injEq] at h
      obtain ⟨h1, -⟩ := h
      omega
    | cons m u =>
      rw [encL, encL, List.cons.injEq] at h
      obtain ⟨rfl, h3⟩ := replicate48_cancel n m _ _ (encL_head_ne_48 t)
        (encL_head_ne_48 u) h.2
      rw [ih u h3]

theorem signQuery_zero (S : HMACSigner) (u : URL) :
    signQuery S u 0 = parseQuery u.rawQuery := by
  rw [signQuery, if_neg (fun h => h rfl)]

theorem signQuery_pos (S : HMACSigner) (u : URL) (D : Nat) (hD : D ≠ 0) :
    signQuery S u D =
      valuesSet (parseQuery u.rawQuery) Expiration (formatRFC3339Nano (S.now + D)) := by
  rw [signQuery, if_pos hD]

theorem signQuery_WF (S : HMACSigner) (u : URL) (D : Nat)
    (hqb : allBytes u.rawQuery = true) : ValuesWF (signQuery S u D) := by
  rw [signQuery]
  split
  · exact valuesSet_WF _ _ _ (parseQuery_WF _ hqb) expiration_bytes
      (formatRFC3339Nano_bytes _)
  · exact parseQuery_WF _ hqb

theorem signQuery_no_sig (S : HMACSigner) (u : URL) (D : Nat)
    (hqb : allBytes u.rawQuery = true)
    (hnosig : valuesHas (parseQuery u.rawQuery) Signature = false) :
    valuesHas (signQuery S u D) Signature = false := by
  rw [signQuery]
  split
  · by_contra hcon
    rw [Bool.not_eq_false] at hcon
    have h1 := valuesList_ne_of_has _ _ (valuesSet_WF _ _ _ (parseQuery_WF _ hqb)
      expiration_bytes (formatRFC3339Nano_bytes _)) hcon
    rw [valuesList_set_other _ _ _ _ (fun hc => expiration_ne_signature hc.symm)] at h1
    exact h1 (valuesHas_false_list _ _ hnosig)
  · exact hnosig

theorem valuesGet_set_same (m : Values) (k v : Str) :
    valuesGet (valuesSet m k v) k = v := by
  rw [valuesGet_eq_headD, valuesList_set_same]
  rfl

theorem verifyExpiration_no_exp (S : HMACSigner) (q : Values)
    (h : valuesHas q Expiration = false) : verifyExpiration S q = VerifyResult.ok := by
  have hget : valuesGet q Expiration = [] := by
    rw [valuesGet_eq_headD, valuesHas_false_list _ _ h]
    rfl
  rw [verifyExpiration, hget]
  rfl

theorem verifyExpiration_set_fmt (S : HMACSigner) (q : Values) (t : Nat)
    (ht : t < maxTime) :
    verifyExpiration S (valuesSet q Expiration (formatRFC3339Nano t)) =
      if t < S.now then VerifyResult.errExpired else VerifyResult.ok := by
  rw [verifyExpiration, valuesGet_set_same,
    if_neg (fun hc => formatRFC3339Nano_ne_nil t (List.length_eq_zero.mp hc)),
    parseRFC3339Nano_format t ht]
  simp only []
  by_cases h : t < S.now
  · rw [if_pos (show (t : Int) < (S.now : Int) by exact_mod_cast h), if_pos h]
  · rw [if_neg (show ¬((t : Int) < (S.now : Int)) by exact_mod_cast h), if_neg h]

theorem b64encode_bytes (s : Str) (hs : allBytes s = true) :
    allBytes (b64encode s) = true := by
  simp only [allBytes, List.all_eq_true, decide_eq_true_eq]
  intro x hx
  obtain ⟨n, hn, rfl⟩ := b64encode_mem s hs x hx
  exact (b64char_safe n hn).2.2.2.2.2.2.2

theorem valuesHas_del_self (m : Values) (k : Str)
    (hch : List.Chain' (fun a b => strLt a.1 b.1 = true) m) :
    valuesHas (valuesDel m k) k = false := by
  induction m with
  | nil => rfl
  | cons p rest ih =>
    rcases p with ⟨k1, l1⟩
    rw [valuesDel]
    by_cases hk : k = k1
    · rw [if_pos hk]
      subst hk
      exact valuesHas_false_of_lt rest k (fun kv hkv => wf_head_lt k l1 rest hch kv hkv)
    · rw [if_neg hk, valuesHas]
      simp only [Bool.or_eq_false_iff, decide_eq_false_iff_not]
      exact ⟨hk, ih (List.chain'_cons'.mp hch).2⟩

/-! ### The claims -/

set_option maxRecDepth 200000 in
/-- C1, counterexample: the unqualified round-trip claim fails.  For the URL
`x?signature=AA` and duration 0, `Sign` succeeds, but `Verify` on the signed
URL returns `errInvalidSignature` rather than success: the pre-existing
`signature` parameter is both MACed into the message and shadows the
appended genuine signature at extraction. -/
theorem C1_roundtrip_counterexample :
    Sign ⟨0, some macHash⟩ ⟨str "x", str "signature=AA", false, []⟩ 0 ≠
      SignResult.panicUnknownHasher ∧
    (Verify ⟨0, some macHash⟩ (parseURL (signedStrOf
        (Sign ⟨0, some macHash⟩ ⟨str "x", str "signature=AA", false, []⟩ 0)))).1 =
      VerifyResult.errInvalidSignature := by
  decide

/-- C1, amended: for a URL without the force-query flag, whose query is
byte-clean, whose base carries no `?` or `#`, and whose query has no
pre-existing `signature` or `expires` parameter, with a working MAC and an
expiry that stays on the calendar, `Sign` succeeds and `Verify` under the
same clock succeeds immediately after signing.  (A force-query URL such as
`x?` signed with duration 0 MACs `x?` but verifies over `x`, so it is
excluded.) -/
theorem C1_roundtrip_clean (mac : Str → Str) (S : HMACSigner) (u : URL) (D : Nat)
    (hs : S.hasher = some mac)
    (hmb : ∀ s, allBytes (mac s) = true) (hmn : ∀ s, mac s ≠ [])
    (hqb : allBytes u.rawQuery = true) (hbase : (63 : Nat) ∉ u.base)
    (hbase35 : (35 : Nat) ∉ u.base) (hfq : u.forceQuery = false)
    (hnosig : valuesHas (parseQuery u.rawQuery) Signature = false)
    (hnoexp : valuesHas (parseQuery u.rawQuery) Expiration = false)
    (ht : S.now + D < maxTime) :
    ∃ signed, Sign S u D = SignResult.ok signed ∧
      (Verify S (parseURL signed)).1 = VerifyResult.ok := by
  obtain ⟨signed, h1, -, h3⟩ := sign_verify_normal mac S S u D hs hs hmb hmn hqb
    hbase hbase35 hnosig
  refine ⟨signed, h1, ?_⟩
  rw [h3 (Or.inl hfq)]
  show verifyExpiration S (signQuery S u D) = VerifyResult.ok
  by_cases hD : D = 0
  · subst hD
    rw [signQuery_zero]
    exact verifyExpiration_no_exp S _ hnoexp
  · rw [signQuery_pos S u D hD, verifyExpiration_set_fmt S _ _ ht, if_neg (by omega)]

/-- Witness for C1: a concrete clean URL round-trips. -/
theorem C1_roundtrip_clean_witness :
    ∃ signed, Sign ⟨0, some macHash⟩ ⟨str "x", str "a=1", false, []⟩ 0 =
        SignResult.ok signed ∧
      (Verify ⟨0, some macHash⟩ (parseURL signed)).1 = VerifyResult.ok :=
  C1_roundtrip_clean macHash ⟨0, some macHash⟩ ⟨str "x", str "a=1", false, []⟩ 0 rfl
    macHash_bytes macHash_ne_nil (by decide) (by decide) (by decide) rfl (by decide)
    (by decide) (by decide)

/-- C2: `New` succeeds exactly when the key length lies in [32, 64]; outside
that range it refuses to construct the signer (the source panics). -/
theorem C2_new_key_bounds (F : HashFamily) (hm : (Str → Str) → Str → Str → Str)
    (algo keyBytes : Str) (now : Nat) :
    (New F hm algo keyBytes now).isSome = true ↔
      32 ≤ keyBytes.length ∧ keyBytes.length ≤ 64 := by
  rw [New]
  split
  · rename_i h
    simp only [Bool.or_eq_true, decide_eq_true_eq] at h
    simp only [Option.isSome_none, Bool.false_eq_true, false_iff]
    omega
  · rename_i h
    simp only [Bool.or_eq_true, decide_eq_true_eq, not_or] at h
    simp only [Option.isSome_some, true_iff]
    omega

set_option maxRecDepth 200000 in
/-- C3, counterexample: the boundary claim quantifies over every URL, yet for
the URL `y?signature=AA` signed with duration 5 at clock 0, verification at
the exact expiry instant 5 fails with `errInvalidSignature` instead of
succeeding. -/
theorem C3_boundary_counterexample :
    Sign ⟨0, some macHash⟩ ⟨str "y", str "signature=AA", false, []⟩ 5 ≠
      SignResult.panicUnknownHasher ∧
    (Verify ⟨5, some macHash⟩ (parseURL (signedStrOf
        (Sign ⟨0, some macHash⟩ ⟨str "y", str "signature=AA", false, []⟩ 5)))).1 =
      VerifyResult.errInvalidSignature := by
  decide

/-- C3, amended: for a clean URL (byte-clean query, no `?` or `#` in the
base, no pre-existing `signature` parameter) signed with non-zero duration D
at clock `S.now`, verification at clock exactly `S.now + D` succeeds (the
boundary is inclusive toward validity), and verification at `S.now + D + ε`
for any `ε > 0` fails with `errExpired`.  A non-zero duration forces a
non-empty canonical query, so the force-query flag cannot matter here. -/
theorem C3_expiry_boundary (mac : Str → Str) (S : HMACSigner) (u : URL) (D ε : Nat)
    (hs : S.hasher = some mac)
    (hmb : ∀ s, allBytes (mac s) = true) (hmn : ∀ s, mac s ≠ [])
    (hqb : allBytes u.rawQuery = true) (hbase : (63 : Nat) ∉ u.base)
    (hbase35 : (35 : Nat) ∉ u.base)
    (hnosig : valuesHas (parseQuery u.rawQuery) Signature = false)
    (hD : D ≠ 0) (ht : S.now + D < maxTime) (hε : 0 < ε) :
    ∃ signed, Sign S u D = SignResult.ok signed ∧
      (Verify ⟨S.now + D, some mac⟩ (parseURL signed)).1 = VerifyResult.ok ∧
      (Verify ⟨S.now + D + ε, some mac⟩ (parseURL signed)).1 =
        VerifyResult.errExpired := by
  have hforce : u.forceQuery = false ∨ valuesEncode (signQuery S u D) ≠ [] := by
    refine Or.inr (fun hc => ?_)
    have h0 := (valuesEncode_eq_nil_iff _ (signQuery_WF S u D hqb)).mp hc
    rw [signQuery_pos S u D hD] at h0
    exact valuesSet_ne_nil _ _ _ h0
  obtain ⟨signed, h1, -, h3⟩ := sign_verify_normal mac S ⟨S.now + D, some mac⟩
    u D hs rfl hmb hmn hqb hbase hbase35 hnosig
  obtain ⟨signed2, h1x, -, h3x⟩ := sign_verify_normal mac S ⟨S.now + D + ε, some mac⟩
    u D hs rfl hmb hmn hqb hbase hbase35 hnosig
  rw [h1] at h1x
  injection h1x with hse
  subst hse
  refine ⟨signed, h1, ?_, ?_⟩
  · rw [h3 hforce]
    show verifyExpiration ⟨S.now + D, some mac⟩ (signQuery S u D) = VerifyResult.ok
    rw [signQuery_pos S u D hD, verifyExpiration_set_fmt _ _ _ ht]
    show (if S.now + D < S.now + D then VerifyResult.errExpired else VerifyResult.ok) =
      VerifyResult.ok
    rw [if_neg (by omega)]
  · rw [h3x hforce]
    show verifyExpiration ⟨S.now + D + ε, some mac⟩ (signQuery S u D) =
      VerifyResult.errExpired
    rw [signQuery_pos S u D hD, verifyExpiration_set_fmt _ _ _ ht]
    show (if S.now + D < S.now + D + ε then VerifyResult.errExpired
      else VerifyResult.ok) = VerifyResult.errExpired
    rw [if_pos (by omega)]

/-- Witness for C3: a concrete clean URL, duration 1, checked at clocks 1
and 2. -/
theorem C3_expiry_boundary_witness :
    ∃ signed, Sign ⟨0, some macHash⟩ ⟨str "x", str "a=1", false, []⟩ 1 =
        SignResult.ok signed ∧
      (Verify ⟨0 + 1, some macHash⟩ (parseURL signed)).1 = VerifyResult.ok ∧
      (Verify ⟨0 + 1 + 1, some macHash⟩ (parseURL signed)).1 =
        VerifyResult.errExpired :=
  C3_expiry_boundary macHash ⟨0, some macHash⟩ ⟨str "x", str "a=1", false, []⟩ 1 1 rfl
    macHash_bytes macHash_ne_nil (by decide) (by decide) (by decide) (by decide)
    (by decide) (by decide) (by decide)

set_option maxRecDepth 200000 in
/-- C4, counterexample: the no-expiry claim fails for a URL whose query
already carries an `expires` parameter.  Signed with duration 0, the signed
URL still contains `expires`, and `Verify` at a later clock reports
`errExpired`. -/
theorem C4_no_expiry_counterexample :
    valuesHas (parseQuery (parseURL (signedStrOf (Sign ⟨0, some macHash⟩
        ⟨str "x", str "expires=0001-01-01T00:00:00.000000001Z", false, []⟩ 0))).rawQuery)
      Expiration = true ∧
    (Verify ⟨5, some macHash⟩ (parseURL (signedStrOf (Sign ⟨0, some macHash⟩
        ⟨str "x", str "expires=0001-01-01T00:00:00.000000001Z", false, []⟩ 0)))).1 =
      VerifyResult.errExpired := by
  decide

/-- C4, amended: for a clean URL without the force-query flag and with no
pre-existing `expires` (or `signature`) parameter, signing with duration 0
yields a signed URL whose query has no `expires` parameter, and `Verify`
succeeds under every clock — it never reports `errExpired`.  (Force-query
URLs such as `x?` are excluded: for them the round trip fails with
`errInvalidSignature` at every clock.) -/
theorem C4_no_expiry_persistence (mac : Str → Str) (S : HMACSigner) (u : URL)
    (tv : Nat) (hs : S.hasher = some mac)
    (hmb : ∀ s, allBytes (mac s) = true) (hmn : ∀ s, mac s ≠ [])
    (hqb : allBytes u.rawQuery = true) (hbase : (63 : Nat) ∉ u.base)
    (hbase35 : (35 : Nat) ∉ u.base) (hfq : u.forceQuery = false)
    (hnosig : valuesHas (parseQuery u.rawQuery) Signature = false)
    (hnoexp : valuesHas (parseQuery u.rawQuery) Expiration = false) :
    ∃ signed, Sign S u 0 = SignResult.ok signed ∧
      valuesHas (parseQuery (parseURL signed).rawQuery) Expiration = false ∧
      (Verify ⟨tv, some mac⟩ (parseURL signed)).1 = VerifyResult.ok := by
  obtain ⟨signed, h1, h2, h3⟩ := sign_verify_normal mac S ⟨tv, some mac⟩ u 0 hs rfl
    hmb hmn hqb hbase hbase35 hnosig
  refine ⟨signed, h1, ?_, ?_⟩
  · rw [h2, signQuery_zero]
    by_contra hcon
    rw [Bool.not_eq_false] at hcon
    have hwfA : ValuesWF (valuesAdd (parseQuery u.rawQuery) Signature
        (b64encode (mac (urlString ⟨u.base, valuesEncode (parseQuery u.rawQuery),
          u.forceQuery, u.fragment⟩)))) :=
      valuesAdd_WF _ _ _ (parseQuery_WF _ hqb) signature_bytes
        (b64encode_bytes _ (hmb _))
    have hlne := valuesList_ne_of_has _ _ hwfA hcon
    rw [valuesList_add_other _ _ _ _ expiration_ne_signature] at hlne
    exact hlne (valuesHas_false_list _ _ hnoexp)
  · rw [h3 (Or.inl hfq)]
    show verifyExpiration ⟨tv, some mac⟩ (signQuery S u 0) = VerifyResult.ok
    rw [signQuery_zero]
    exact verifyExpiration_no_exp _ _ hnoexp

/-- Witness for C4: a concrete clean URL signed with duration 0 and checked
under a much later clock. -/
theorem C4_no_expiry_persistence_witness :
    ∃ signed, Sign ⟨0, some macHash⟩ ⟨str "x", str "a=1", false, []⟩ 0 =
        SignResult.ok signed ∧
      valuesHas (parseQuery (parseURL signed).rawQuery) Expiration = false ∧
      (Verify ⟨999999999999999999, some macHash⟩ (parseURL signed)).1 =
        VerifyResult.ok :=
  C4_no_expiry_persistence macHash ⟨0, some macHash⟩ ⟨str "x", str "a=1", false, []⟩
    999999999999999999 rfl macHash_bytes macHash_ne_nil (by decide) (by decide)
    (by decide) rfl (by decide) (by decide)

/-- C5: tamper sensitivity.  For a clean URL signed by `Sign`, rewriting the
value of any non-`signature` query parameter `k` to a value `v` different
from what the signed query held there — and reparsing the rewritten URL
string, which clears the force-query flag and keeps the fragment — makes
`Verify` fail with `errInvalidSignature`, provided the MAC is collision-free
(an ideal keyed hash). -/
theorem C5_tamper_detected (mac : Str → Str) (Ss Sv : HMACSigner) (u : URL)
    (D : Nat) (k v : Str)
    (hss : Ss.hasher = some mac) (hsv : Sv.hasher = some mac)
    (hmb : ∀ s, allBytes (mac s) = true) (hmn : ∀ s, mac s ≠ [])
    (hinj : ∀ a b, mac a = mac b → a = b)
    (hqb : allBytes u.rawQuery = true) (hbase : (63 : Nat) ∉ u.base)
    (hbase35 : (35 : Nat) ∉ u.base)
    (hnosig : valuesHas (parseQuery u.rawQuery) Signature = false)
    (hk : k ≠ Signature) (hkb : allBytes k = true) (hvb : allBytes v = true)
    (hchg : [v] ≠ valuesList (signQuery Ss u D) k) :
    ∃ signed, Sign Ss u D = SignResult.ok signed ∧
      (Verify Sv ⟨u.base, valuesEncode (valuesSet
        (parseQuery (parseURL signed).rawQuery) k v), false, u.fragment⟩).1 =
        VerifyResult.errInvalidSignature := by
  obtain ⟨signed, h1, h2, -⟩ := sign_verify_normal mac Ss Sv u D hss hsv hmb hmn
    hqb hbase hbase35 hnosig
  refine ⟨signed, h1, ?_⟩
  rw [h2]
  have hq2WF : ValuesWF (signQuery Ss u D) := signQuery_WF Ss u D hqb
  have hnosig2 := signQuery_no_sig Ss u D hqb hnosig
  set q2 := signQuery Ss u D with hq2def
  set msg := urlString ⟨u.base, valuesEncode q2, u.forceQuery, u.fragment⟩ with hmsgdef
  set sig := b64encode (mac msg) with hsigdef
  have hsb : allBytes sig = true := b64encode_bytes _ (hmb msg)
  have hsigne : sig ≠ [] := fun hc => hmn msg ((b64encode_eq_nil_iff _).mp hc)
  have hMWF : ValuesWF (valuesAdd q2 Signature sig) :=
    valuesAdd_WF _ _ _ hq2WF signature_bytes hsb
  have hSWF : ValuesWF (valuesSet (valuesAdd q2 Signature sig) k v) :=
    valuesSet_WF _ _ _ hMWF hkb hvb
  have hparse : parseQuery (valuesEncode (valuesSet (valuesAdd q2 Signature sig) k v)) =
      valuesSet (valuesAdd q2 Signature sig) k v := parseQuery_valuesEncode _ hSWF
  have hglist : valuesList (valuesSet (valuesAdd q2 Signature sig) k v) Signature =
      [sig] := by
    rw [valuesList_set_other _ _ _ _ (fun hc => hk hc.symm),
      valuesList_add_same _ _ _ hq2WF.1, valuesHas_false_list _ _ hnosig2]
    rfl
  have hgget : valuesGet (valuesSet (valuesAdd q2 Signature sig) k v) Signature =
      sig := by
    rw [valuesGet_eq_headD, hglist]
    rfl
  have hdel : valuesDel (valuesSet (valuesAdd q2 Signature sig) k v) Signature =
      valuesSet q2 k v := by
    rw [valuesSet_del_comm _ _ _ _ hk hMWF.1, valuesDel_add_not_has _ _ _ hnosig2]
  have hex : extractAndDecodeSignature (parseQuery (valuesEncode
      (valuesSet (valuesAdd q2 Signature sig) k v))) =
      ExtractResult.ok (mac msg) (valuesSet q2 k v) := by
    rw [hparse, extractAndDecodeSignature, hgget, if_neg hsigne, hsigdef,
      b64decode_b64encode (mac msg) (hmb msg)]
    simp only []
    rw [hdel]
  rw [Verify]
  simp only [hex]
  rw [hsv]
  simp only []
  have hsetne : valuesEncode (valuesSet q2 k v) ≠ valuesEncode q2 := by
    intro hcon
    have hvals : valuesSet q2 k v = q2 := by
      have hp := congrArg parseQuery hcon
      rwa [parseQuery_valuesEncode _ (valuesSet_WF _ _ _ hq2WF hkb hvb),
        parseQuery_valuesEncode _ hq2WF] at hp
    have hlst := congrArg (fun m => valuesList m k) hvals
    simp only [] at hlst
    rw [valuesList_set_same] at hlst
    exact hchg hlst
  have hmsgne : urlString ⟨u.base, valuesEncode (valuesSet q2 k v), false, u.fragment⟩ ≠
      msg := by
    rw [hmsgdef]
    exact urlString_ne_of_query u.base u.fragment _ _ false u.forceQuery
      (fun hc => valuesSet_ne_nil _ _ _
        ((valuesEncode_eq_nil_iff _ (valuesSet_WF _ _ _ hq2WF hkb hvb)).mp hc)) hsetne
  have hbeq : verifyMAC mac
      (urlString ⟨u.base, valuesEncode (valuesSet q2 k v), false, u.fragment⟩)
      (mac msg) = false := by
    rw [verifyMAC, beq_eq_false_iff_ne]
    intro hcon
    exact hmsgne (hinj _ _ hcon).symm
  rw [hbeq, if_neg Bool.false_ne_true]

/-- Witness for C5: under the injective toy MAC, rewriting `a=1` to `a=2`
after signing `x?a=1` is detected. -/
theorem C5_tamper_detected_witness :
    ∃ signed, Sign ⟨0, some encL⟩ ⟨str "x", str "a=1", false, []⟩ 0 =
        SignResult.ok signed ∧
      (Verify ⟨0, some encL⟩ ⟨str "x", valuesEncode (valuesSet
        (parseQuery (parseURL signed).rawQuery) (str "a") (str "2")), false, []⟩).1 =
        VerifyResult.errInvalidSignature :=
  C5_tamper_detected encL ⟨0, some encL⟩ ⟨0, some encL⟩ ⟨str "x", str "a=1", false, []⟩
    0 (str "a") (str "2") rfl rfl encL_bytes encL_ne_nil encL_inj (by decide)
    (by decide) (by decide) (by decide) (by decide) (by decide) (by decide) (by decide)

/-- C6: `Verify` reports `errMissingSignature` exactly for an absent or
empty `signature` parameter, and `errInvalidSignature` for a present
`signature` value that is not decodable unpadded URL-safe base64. -/
theorem C6_missing_and_invalid (S : HMACSigner) (u : URL) :
    (valuesGet (parseQuery u.rawQuery) Signature = [] →
      (Verify S u).1 = VerifyResult.errMissingSignature) ∧
    (valuesGet (parseQuery u.rawQuery) Signature ≠ [] →
      b64decode (valuesGet (parseQuery u.rawQuery) Signature) = none →
      (Verify S u).1 = VerifyResult.errInvalidSignature) := by
  constructor
  · intro h
    have hex : extractAndDecodeSignature (parseQuery u.rawQuery) =
        ExtractResult.err VerifyResult.errMissingSignature := by
      rw [extractAndDecodeSignature, h, if_pos rfl]
    rw [Verify]
    simp only [hex]
  · intro h hdec
    have hex : extractAndDecodeSignature (parseQuery u.rawQuery) =
        ExtractResult.err VerifyResult.errInvalidSignature := by
      rw [extractAndDecodeSignature, if_neg h, hdec]
    rw [Verify]
    simp only [hex]

/-- Witness for C6: a URL with no signature parameter, and one whose
signature value holds a byte outside the base64 alphabet. -/
theorem C6_missing_and_invalid_witness :
    (Verify ⟨0, none⟩ ⟨str "x", str "a=1", false, []⟩).1 =
      VerifyResult.errMissingSignature ∧
    (Verify ⟨0, none⟩ ⟨str "x", str "signature=!", false, []⟩).1 =
      VerifyResult.errInvalidSignature :=
  ⟨(C6_missing_and_invalid ⟨0, none⟩ ⟨str "x", str "a=1", false, []⟩).1 (by decide),
   (C6_missing_and_invalid ⟨0, none⟩ ⟨str "x", str "signature=!", false, []⟩).2
     (by decide) (by decide)⟩

/-- C7: with a valid-length key and an algorithm name outside the supported
set, `New` succeeds and returns a signer, and the fatal condition surfaces
only at the first use of the hash factory: every `Sign` call panics, and
`Verify` panics as soon as it reaches the MAC computation (that is, whenever
signature extraction and decoding succeed). -/
theorem C7_deferred_algo_panic (F : HashFamily)
    (hm : (Str → Str) → Str → Str → Str) (algo keyBytes : Str) (now : Nat)
    (hkey : 32 ≤ keyBytes.length ∧ keyBytes.length ≤ 64)
    (halgo : ParseHasher F algo = none) :
    ∃ S, New F hm algo keyBytes now = some S ∧ S.hasher = none ∧
      (∀ u D, Sign S u D = SignResult.panicUnknownHasher) ∧
      (∀ u sigBytes q2,
        extractAndDecodeSignature (parseQuery u.rawQuery) =
          ExtractResult.ok sigBytes q2 →
        (Verify S u).1 = VerifyResult.panicUnknownHasher) := by
  refine ⟨⟨now, none⟩, ?_, rfl, ?_, ?_⟩
  · rw [New, if_neg (by
      simp only [Bool.or_eq_true, decide_eq_true_eq, not_or]
      omega), halgo]
    rfl
  · intro u D
    rw [Sign]
  · intro u sigBytes q2 hex
    rw [Verify]
    simp only [hex]

/-- Witness for C7: a 32-byte key and the unsupported name `md5`. -/
theorem C7_deferred_algo_panic_witness :
    ∃ S, New dummyHashFamily (fun h _ => h) (str "md5") (List.replicate 32 48) 0 =
        some S ∧ S.hasher = none ∧
      Sign S ⟨str "x", str "a=1", false, []⟩ 0 = SignResult.panicUnknownHasher ∧
      (Verify S ⟨str "x", str "signature=AA", false, []⟩).1 =
        VerifyResult.panicUnknownHasher := by
  obtain ⟨S, h1, h2, h3, h4⟩ := C7_deferred_algo_panic dummyHashFamily (fun h _ => h)
    (str "md5") (List.replicate 32 48) 0 (by decide) (by rfl)
  exact ⟨S, h1, h2, h3 ⟨str "x", str "a=1", false, []⟩ 0,
    h4 ⟨str "x", str "signature=AA", false, []⟩ [0] [] (by rfl)⟩

/-- C8: when signature extraction, decoding and the MAC comparison all
succeed but the query holds a non-empty `expires` value that does not parse
as RFC3339Nano, `Verify` panics (`panicInvalidExpiration`) instead of
returning a caller-facing error. -/
theorem C8_bad_expires_panics (S : HMACSigner) (u : URL) (mac : Str → Str)
    (sigBytes : Str) (q2 : Values)
    (hs : S.hasher = some mac)
    (hex : extractAndDecodeSignature (parseQuery u.rawQuery) =
      ExtractResult.ok sigBytes q2)
    (hmac : verifyMAC mac (urlString ⟨u.base, valuesEncode q2, u.forceQuery,
      u.fragment⟩) sigBytes = true)
    (hne : valuesGet q2 Expiration ≠ [])
    (hpar : parseRFC3339Nano (valuesGet q2 Expiration) = none) :
    (Verify S u).1 = VerifyResult.panicInvalidExpiration := by
  rw [Verify]
  simp only [hex]
  rw [hs]
  simp only []
  rw [if_pos hmac]
  show verifyExpiration S q2 = VerifyResult.panicInvalidExpiration
  rw [verifyExpiration, if_neg (fun hc => hne (List.length_eq_zero.mp hc)), hpar]

/-- Witness for C8: under the constant MAC, `x?expires=zzz&signature=QQ`
carries a valid signature (`QQ` decodes to the constant MAC value) and an
unparsable expiry, so `Verify` panics. -/
theorem C8_bad_expires_panics_witness :
    (Verify ⟨5, some macConstA⟩ ⟨str "x", str "expires=zzz&signature=QQ", false, []⟩).1 =
      VerifyResult.panicInvalidExpiration :=
  C8_bad_expires_panics ⟨5, some macConstA⟩
    ⟨str "x", str "expires=zzz&signature=QQ", false, []⟩ macConstA [65]
    [(str "expires", [str "zzz"])] rfl (by rfl) (by rfl) (by decide) (by decide)

set_option maxRecDepth 200000 in
/-- C9, counterexample: reordering is not harmless for repeated keys.  The
URL `x?a=1&a=2` signs to `x?a=1&a=2&signature=bg`; the query
`a=2&a=1&signature=bg` carries the same multiset of parameters (the pieces
are a permutation), yet `Verify` fails with `errInvalidSignature`, because
canonicalization preserves the relative order of values sharing a key. -/
theorem C9_reorder_counterexample :
    List.Perm (splitOnByte 38 (parseURL (signedStrOf (Sign ⟨0, some macHash⟩
        ⟨str "x", str "a=1&a=2", false, []⟩ 0))).rawQuery)
      (splitOnByte 38 (str "a=2&a=1&signature=bg")) ∧
    (Verify ⟨0, some macHash⟩ ⟨str "x", str "a=2&a=1&signature=bg", false, []⟩).1 =
      VerifyResult.errInvalidSignature := by
  decide

/-- C9, amended: verification depends on the URL only through its base,
force-query flag, fragment and parsed query: any two URLs agreeing on the
first three whose raw queries parse to the same `url.Values` — in
particular, any textual reordering of parameters with distinct keys — verify
identically. -/
theorem C9_parse_invariance (S : HMACSigner) (u1 u2 : URL)
    (hb : u1.base = u2.base) (hf : u1.forceQuery = u2.forceQuery)
    (hfr : u1.fragment = u2.fragment)
    (hq : parseQuery u1.rawQuery = parseQuery u2.rawQuery) :
    (Verify S u1).1 = (Verify S u2).1 := by
  rw [Verify, Verify, hq, hb, hf, hfr]
  cases hex : extractAndDecodeSignature (parseQuery u2.rawQuery) with
  | err e => rfl
  | ok sigBytes q2 => rfl

/-- Witness for C9: swapping two distinct-key parameters leaves the verify
outcome unchanged. -/
theorem C9_parse_invariance_witness :
    (Verify ⟨0, none⟩ ⟨str "x", str "a=1&b=2", false, []⟩).1 =
      (Verify ⟨0, none⟩ ⟨str "x", str "b=2&a=1", false, []⟩).1 :=
  C9_parse_invariance ⟨0, none⟩ ⟨str "x", str "a=1&b=2", false, []⟩
    ⟨str "x", str "b=2&a=1", false, []⟩ rfl rfl rfl (by decide)

/-- C10: whenever the `signature` parameter is present and decodable,
`Verify` rewrites the URL it was handed — whatever the verdict — to the
canonical encoding of the remaining parameters with every `signature` value
removed, leaving the base, force-query flag and fragment untouched, and the
rewritten query indeed carries no `signature` key. -/
theorem C10_verify_rewrites_url (S : HMACSigner) (u : URL)
    (hqb : allBytes u.rawQuery = true)
    (hsig : valuesGet (parseQuery u.rawQuery) Signature ≠ [])
    (hdec : b64decode (valuesGet (parseQuery u.rawQuery) Signature) ≠ none) :
    (Verify S u).2 =
      URL.mk u.base (valuesEncode (valuesDel (parseQuery u.rawQuery) Signature))
        u.forceQuery u.fragment ∧
    valuesHas (parseQuery (Verify S u).2.rawQuery) Signature = false := by
  obtain ⟨bs, hbs⟩ := Option.ne_none_iff_exists'.mp hdec
  have hex : extractAndDecodeSignature (parseQuery u.rawQuery) =
      ExtractResult.ok bs (valuesDel (parseQuery u.rawQuery) Signature) := by
    rw [extractAndDecodeSignature, if_neg hsig, hbs]
  have h2 : (Verify S u).2 =
      URL.mk u.base (valuesEncode (valuesDel (parseQuery u.rawQuery) Signature))
        u.forceQuery u.fragment := by
    rw [Verify]
    simp only [hex]
    cases hh : S.hasher with
    | none => rfl
    | some mac =>
      simp only []
      split <;> rfl
  refine ⟨h2, ?_⟩
  rw [h2]
  show valuesHas (parseQuery (valuesEncode (valuesDel (parseQuery u.rawQuery)
    Signature))) Signature = false
  rw [parseQuery_valuesEncode _ (valuesDel_WF _ _ (parseQuery_WF _ hqb))]
  exact valuesHas_del_self _ _ (parseQuery_WF _ hqb).1

/-- Witness for C10: `x?b=2&signature=AA` is rewritten to `x?b=2`. -/
theorem C10_verify_rewrites_url_witness :
    (Verify ⟨0, none⟩ ⟨str "x", str "b=2&signature=AA", false, []⟩).2 =
      URL.mk (str "x") (valuesEncode (valuesDel
        (parseQuery (str "b=2&signature=AA")) Signature)) false [] ∧
    valuesHas (parseQuery (Verify ⟨0, none⟩
        ⟨str "x", str "b=2&signature=AA", false, []⟩).2.rawQuery) Signature = false :=
  C10_verify_rewrites_url ⟨0, none⟩ ⟨str "x", str "b=2&signature=AA", false, []⟩
    (by decide) (by decide) (by decide)
